import Mathlib

/-!
Verification of the column reader core of the segment_v2 storage engine
(`be/src/olap/rowset/segment_v2/column_reader.cpp`).

The development shallowly embeds the reader's data model and operations:
zone-map based page filtering, bloom-filter based range pruning, ordinal
seek and null-aware batched decoding of a scalar column iterator, index
metadata scanning in `ColumnReader::init`, the array iterator's status
propagation, and the default-value iterator.  External collaborators
(`RowRanges`, the ordinal index, `ParsedPage`, decoders, `CondColumn`)
are modelled from the specification, as noted on each definition.
-/

set_option autoImplicit false

namespace SegmentV2

/-- Modelled from the spec: the engine's `Status` values that the column
reader core produces (`OK` is represented by `Except.ok`). -/
inductive Status where
  | Corruption (msg : String)
  | NotSupported (msg : String)
  | NotFound (msg : String)
  | InternalError (msg : String)
  | IOError (msg : String)
deriving Repr, DecidableEq

/-- `ZoneMapPB` as stored per page (and per segment) in the column metadata:
min/max in string form plus the three flags.  Mirrors the protobuf message
used by `column_reader.cpp`. -/
structure ZoneMapPB where
  min : String
  max : String
  has_not_null : Bool
  has_null : Bool
  pass_all : Bool
deriving Repr, DecidableEq

/-- Modelled from the spec: a `WrapperField` container either holds a value
decoded from its string form or is null.  `none` is null. -/
abbrev WrapperFieldVal := Option String

/-- Modelled from the spec: the three results of `CondColumn::del_eval`. -/
inductive DelEvalResult where
  | del_not_satisfied
  | del_partial_satisfied
  | del_satisfied
deriving Repr, DecidableEq

/-- Modelled from the spec: the query-side condition evaluator.  `eval` and
`del_eval` judge a `{min, max}` pair of wrapper fields; `eval_bf` judges a
page's bloom filter (the filter itself is abstracted by a natural number);
`can_do_bloom_filter` reports whether the condition supports bloom filtering. -/
structure CondColumn where
  eval : WrapperFieldVal × WrapperFieldVal → Bool
  del_eval : WrapperFieldVal × WrapperFieldVal → DelEvalResult
  eval_bf : Nat → Bool
  can_do_bloom_filter : Bool

/-- `ColumnReader::_parse_zone_map`: fill the min/max containers from a
zone map.  The containers are mutated in place in the source; here the
current container contents come in and the updated contents go out
(the source overwrites them in the same order as modelled). -/
def parse_zone_map (zone_map : ZoneMapPB) (min_value max_value : WrapperFieldVal) :
    WrapperFieldVal × WrapperFieldVal :=
  -- min value and max value are valid if has_not_null is true
  let min_value := if zone_map.has_not_null then some zone_map.min else min_value
  let max_value := if zone_map.has_not_null then some zone_map.max else max_value
  -- if exist null, original logic treats null as min
  let min_value := if zone_map.has_null then none else min_value
  let max_value := if zone_map.has_null && !zone_map.has_not_null then none else max_value
  (min_value, max_value)

/-- `ColumnReader::_zone_map_match_condition`. -/
def zone_map_match_condition (zone_map : ZoneMapPB)
    (min_value max_value : WrapperFieldVal) (cond : Option CondColumn) : Bool :=
  if !zone_map.has_not_null && !zone_map.has_null then
    false -- no data in this zone
  else
    match cond with
    | none => true
    | some c => if zone_map.pass_all then true else c.eval (min_value, max_value)

/-- The `should_read` computation of `_get_filtered_pages`: a page that
matched the condition is read unless the delete condition is present and
returns `DEL_SATISFIED` on the parsed `{min, max}`. -/
def delete_allows (delete_condition : Option CondColumn)
    (mv : WrapperFieldVal × WrapperFieldVal) : Bool :=
  match delete_condition with
  | none => true
  | some d => !(d.del_eval mv == DelEvalResult.del_satisfied)

/-- Loop body of `ColumnReader::_get_filtered_pages`: walk the per-page zone
maps carrying the reused min/max containers and the running page index,
collecting the indexes of accepted pages. -/
def get_filtered_pages_go (cond delete_condition : Option CondColumn) :
    List ZoneMapPB → WrapperFieldVal × WrapperFieldVal → Nat → List Nat
  | [], _, _ => []
  | zone_map :: rest, mv, i =>
    if zone_map.pass_all then
      i :: get_filtered_pages_go cond delete_condition rest mv (i + 1)
    else
      let mv2 := parse_zone_map zone_map mv.1 mv.2
      if zone_map_match_condition zone_map mv2.1 mv2.2 cond then
        if delete_allows delete_condition mv2 then
          i :: get_filtered_pages_go cond delete_condition rest mv2 (i + 1)
        else
          get_filtered_pages_go cond delete_condition rest mv2 (i + 1)
      else
        get_filtered_pages_go cond delete_condition rest mv2 (i + 1)

/-- `ColumnReader::_get_filtered_pages`: the min/max containers start out as
freshly created `WrapperField`s whose contents are unspecified (modelled as
null); the accept decision never reads an unparsed container. -/
def get_filtered_pages (zone_maps : List ZoneMapPB)
    (cond delete_condition : Option CondColumn) : List Nat :=
  get_filtered_pages_go cond delete_condition zone_maps (none, none) 0

/-- Modelled from the spec: `RowRanges` is an ordered set of half-open
ordinal intervals `[lo, hi)`; only its membership semantics matter to the
reader core, so it is represented by a plain list of interval bounds. -/
structure RowRanges where
  ranges : List (Nat × Nat)
deriving Repr, DecidableEq

/-- Modelled from the spec: an ordinal is covered by a `RowRanges` iff some
interval of it contains the ordinal. -/
def RowRanges.covers (rr : RowRanges) (o : Nat) : Bool :=
  rr.ranges.any fun r => decide (r.1 ≤ o) && decide (o < r.2)

/-- Modelled from the spec: `RowRanges::clear`. -/
def RowRanges.clear (_ : RowRanges) : RowRanges := ⟨[]⟩

/-- Modelled from the spec: `RowRanges::create_single(lo, hi)` builds the
single interval `[lo, hi)`. -/
def RowRanges.create_single (lo hi : Nat) : RowRanges := ⟨[(lo, hi)]⟩

/-- Modelled from the spec: `RowRanges::add` unions one more interval in. -/
def RowRanges.add (rr : RowRanges) (r : Nat × Nat) : RowRanges := ⟨rr.ranges ++ [r]⟩

/-- Modelled from the spec: `RowRanges::ranges_union` (set union of the
covered ordinals). -/
def RowRanges.ranges_union (a b : RowRanges) : RowRanges := ⟨a.ranges ++ b.ranges⟩

/-- Modelled from the spec: `RowRanges::ranges_intersection` (set
intersection of the covered ordinals, computed pairwise on intervals). -/
def RowRanges.ranges_intersection (a b : RowRanges) : RowRanges :=
  ⟨(a.ranges.map (fun r => b.ranges.map fun s => (Nat.max r.1 s.1, Nat.min r.2 s.2))).flatten⟩

/-- Modelled from the spec: the external ordinal index maps each data page
index to the ordinal range it covers; entry `i` is
`(first_ordinal(i), last_ordinal(i))`. -/
structure OrdinalIndexReader where
  pages : List (Nat × Nat)
deriving Repr, DecidableEq

def OrdinalIndexReader.num_pages (oi : OrdinalIndexReader) : Nat := oi.pages.length

def OrdinalIndexReader.get_first_ordinal (oi : OrdinalIndexReader) (i : Nat) : Nat :=
  (oi.pages.getD i (0, 0)).1

def OrdinalIndexReader.get_last_ordinal (oi : OrdinalIndexReader) (i : Nat) : Nat :=
  (oi.pages.getD i (0, 0)).2

/-- `ColumnReader::_calculate_row_ranges`: clear the output, then union in
the ordinal range of every accepted page. -/
def calculate_row_ranges (oi : OrdinalIndexReader) (page_indexes : List Nat)
    (row_ranges : RowRanges) : RowRanges :=
  page_indexes.foldl
    (fun acc i =>
      RowRanges.ranges_union acc
        (RowRanges.create_single (oi.get_first_ordinal i) (oi.get_last_ordinal i + 1)))
    (RowRanges.clear row_ranges)

/-- `ColumnReader::get_row_ranges_by_zone_map` (index loading, which cannot
fail in the in-memory model, elided). -/
def get_row_ranges_by_zone_map (oi : OrdinalIndexReader) (zone_maps : List ZoneMapPB)
    (cond delete_condition : Option CondColumn) (row_ranges : RowRanges) : RowRanges :=
  calculate_row_ranges oi (get_filtered_pages zone_maps cond delete_condition) row_ranges

/-! ### Zone-map pushdown: per-page acceptance and range calculation -/

/-- The claim-side characterization of when `_get_filtered_pages` accepts a
page: `pass_all`, or else a non-empty zone whose parsed min/max match the
condition and are not fully deleted by the delete condition.  The min/max
used are the canonical parse of this page's zone map (starting from null
containers); acceptance never depends on the containers' previous
contents. -/
def page_accepted_spec (zone_map : ZoneMapPB) (cond delete_condition : Option CondColumn) : Bool :=
  let mv := parse_zone_map zone_map none none
  zone_map.pass_all ||
    ((zone_map.has_not_null || zone_map.has_null) &&
      zone_map_match_condition zone_map mv.1 mv.2 cond &&
      delete_allows delete_condition mv)

/-! ### Bloom-filter pushdown -/

/-- Modelled from the spec: search for the last page whose first ordinal is
at or before `ord`, scanning page positions `0, …, n-1` from the back (the
real index uses a binary search over the same table, with the same
result). -/
def seek_at_or_before_go (firsts : Nat → Nat) (ord : Nat) : Nat → Option Nat
  | 0 => none
  | n + 1 => if firsts n ≤ ord then some n else seek_at_or_before_go firsts ord n

/-- Modelled from the spec: `OrdinalIndexReader::seek_at_or_before(ord)`;
`none` is an invalid iterator (no page starts at or before `ord`). -/
def OrdinalIndexReader.seek_at_or_before (oi : OrdinalIndexReader) (ord : Nat) : Option Nat :=
  seek_at_or_before_go oi.get_first_ordinal ord oi.num_pages

/-- Modelled from the spec: `std::set<uint32_t>::insert` (membership view:
duplicates are not added). -/
def insert_page_id (acc : List Nat) (pid : Nat) : List Nat :=
  if pid ∈ acc then acc else acc ++ [pid]

/-- The page-collection loop of `get_row_ranges_by_bloom_filter` for one
input range: `while (idx < to && iter.valid()) { insert page; idx =
last_ordinal + 1; iter.next(); }`.  `steps` is the number of pages left in
front of the iterator (`num_pages - pidx` at every call), which bounds the
iterations; when the guard is live `steps` is never zero, so the loop is the
source's `while` loop verbatim. -/
def covered_loop (oi : OrdinalIndexReader) (to_ord : Nat) :
    Nat → Nat → Nat → List Nat → List Nat
  | _, _, 0, acc => acc
  | idx, pidx, steps + 1, acc =>
    if idx < to_ord ∧ pidx < oi.num_pages then
      covered_loop oi to_ord (oi.get_last_ordinal pidx + 1) (pidx + 1) steps
        (insert_page_id acc pidx)
    else acc

/-- The covered-page-id collection of `get_row_ranges_by_bloom_filter`:
for each input range, seek the page at or before its start and walk pages
until the range end. -/
def covered_page_ids (oi : OrdinalIndexReader) (rr : RowRanges) : List Nat :=
  rr.ranges.foldl
    (fun acc r =>
      match oi.seek_at_or_before r.1 with
      | some pidx => covered_loop oi r.2 r.1 pidx (oi.num_pages - pidx) acc
      | none => acc)
    []

/-- `ColumnReader::get_row_ranges_by_bloom_filter`.  The bloom filter of
page `pid` is the abstract datum `bf_of pid`; the condition column is a
possibly-null pointer, and dereferencing it in the per-page loop when it is
null is undefined behaviour, modelled as `none`. -/
def ColumnReader.get_row_ranges_by_bloom_filter (oi : OrdinalIndexReader) (bf_of : Nat → Nat)
    (cond : Option CondColumn) (row_ranges : RowRanges) : Option RowRanges :=
  let page_ids := covered_page_ids oi row_ranges
  match cond with
  | some c =>
    let bf_row_ranges := page_ids.foldl
      (fun acc pid =>
        if c.eval_bf (bf_of pid) then
          acc.add (oi.get_first_ordinal pid, oi.get_last_ordinal pid + 1)
        else acc)
      ⟨[]⟩
    some (RowRanges.ranges_intersection row_ranges bf_row_ranges)
  | none =>
    if page_ids.isEmpty then some (RowRanges.ranges_intersection row_ranges ⟨[]⟩)
    else none

/-- `FileColumnIterator::get_row_ranges_by_bloom_filter`: guard on a
non-null condition that can do bloom filtering and on the reader having a
bloom-filter index, else leave `row_ranges` untouched. -/
def FileColumnIterator.get_row_ranges_by_bloom_filter (has_bloom_filter_index : Bool)
    (oi : OrdinalIndexReader) (bf_of : Nat → Nat) (cond : Option CondColumn)
    (row_ranges : RowRanges) : Option RowRanges :=
  if (match cond with
      | some c => c.can_do_bloom_filter
      | none => false) && has_bloom_filter_index then
    ColumnReader.get_row_ranges_by_bloom_filter oi bf_of cond row_ranges
  else
    some row_ranges

/-- Well-formedness of the ordinal index: pages are non-empty and cover a
contiguous, dense ordinal range starting at 0. -/
def WfOrdinalIndex (oi : OrdinalIndexReader) : Prop :=
  (∀ i, i < oi.num_pages → oi.get_first_ordinal i ≤ oi.get_last_ordinal i) ∧
  (0 < oi.num_pages → oi.get_first_ordinal 0 = 0) ∧
  (∀ i, i < oi.num_pages - 1 → oi.get_first_ordinal (i + 1) = oi.get_last_ordinal i + 1)

/-- Per-range page coverage as computed by the collection loop (entered via
`seek_at_or_before` at the range's start). -/
def range_covers_page (oi : OrdinalIndexReader) (r : Nat × Nat) (q : Nat) : Prop :=
  match oi.seek_at_or_before r.1 with
  | none => False
  | some pidx => r.1 < r.2 ∧ pidx ≤ q ∧ q < oi.num_pages ∧
      (q = pidx ∨ oi.get_first_ordinal q < r.2)

/-- A condition column whose every evaluation accepts; used to instantiate
witnesses. -/
def cond_true : CondColumn :=
  ⟨fun _ => true, fun _ => DelEvalResult.del_not_satisfied, fun _ => true, true⟩

/-! ### `ColumnReader::init`: index metadata scanning -/

/-- The index types of `ColumnIndexTypePB` known to `ColumnReader::init`;
any other enum value is unknown. -/
inductive ColumnIndexTypePB where
  | ORDINAL_INDEX
  | ZONE_MAP_INDEX
  | BITMAP_INDEX
  | BLOOM_FILTER_INDEX
  | UNKNOWN_INDEX (v : Nat)
deriving Repr, DecidableEq, BEq

/-- One index descriptor of the column metadata; `payload` stands for the
index-type-specific metadata message (`ordinal_index()`, `zone_map_index()`,
`bitmap_index()` or `bloom_filter_index()`). -/
structure ColumnIndexMetaPB where
  type : ColumnIndexTypePB
  payload : Nat
deriving Repr, DecidableEq

/-- The four index-metadata pointers of a `ColumnReader`, all initially
null. -/
structure IndexPointers where
  _ordinal_index_meta : Option Nat
  _zone_map_index_meta : Option Nat
  _bitmap_index_meta : Option Nat
  _bf_index_meta : Option Nat
deriving Repr, DecidableEq

def ColumnIndexTypePB.is_unknown : ColumnIndexTypePB → Bool
  | .UNKNOWN_INDEX _ => true
  | _ => false

/-- The index-scanning loop of `ColumnReader::init`: each known descriptor
stores its metadata pointer (overwriting any previous one of the same
type); an unknown type is a `Corruption` error. -/
def ColumnReader.init_scan : List ColumnIndexMetaPB → IndexPointers →
    Except Status IndexPointers
  | [], st => .ok st
  | e :: rest, st =>
    match e.type with
    | .ORDINAL_INDEX => ColumnReader.init_scan rest { st with _ordinal_index_meta := some e.payload }
    | .ZONE_MAP_INDEX => ColumnReader.init_scan rest { st with _zone_map_index_meta := some e.payload }
    | .BITMAP_INDEX => ColumnReader.init_scan rest { st with _bitmap_index_meta := some e.payload }
    | .BLOOM_FILTER_INDEX => ColumnReader.init_scan rest { st with _bf_index_meta := some e.payload }
    | .UNKNOWN_INDEX v =>
      .error (Status.Corruption ("Bad file: invalid column index type " ++ toString v))

/-- `ColumnReader::init` restricted to the part it decides itself: type
info, encoding info and compression codec come from external registries
(assumed resolved); then the index list is scanned and, finally, a missing
ordinal index on a non-empty column is a `Corruption` error. -/
def ColumnReader.init (indexes : List ColumnIndexMetaPB) (num_rows : Nat) :
    Except Status IndexPointers :=
  match ColumnReader.init_scan indexes ⟨none, none, none, none⟩ with
  | .error e => .error e
  | .ok st =>
    if st._ordinal_index_meta.isNone && !(num_rows == 0) then
      .error (Status.Corruption "Bad file: missing ordinal index for column")
    else
      .ok st

/-- The payload of the last descriptor of type `t`, if any. -/
def last_index_of_type (indexes : List ColumnIndexMetaPB) (t : ColumnIndexTypePB) : Option Nat :=
  ((indexes.filter fun e => decide (e.type = t)).getLast?).map (·.payload)

/-! ### Scalar iterator: `ParsedPage`, ordinal seek and null-aware decoding

The page I/O layer, `ParsedPage` and the value/null decoders are external
collaborators; they are modelled from the spec as follows.  A column is a
list of decoded pages held in memory (page reads cannot fail in the
model).  A page's content is its row list (`none` is a null row); the
typed value decoder iterates over the non-null values
(`rows.filterMap id`) with cursor `data_pos`, and the RLE null decoder
iterates over the null bitmap (`rows.map Option.isNone`) with cursor
`null_pos` (bits consumed so far). -/

/-- One data page of a column as written to the segment: its rows and the
footer's null flag (when `has_null = false` no null bitmap is stored and
every row is a value). -/
structure PageData where
  rows : List (Option Int)
  has_null : Bool
deriving Repr, DecidableEq

/-- A scalar column: the list of its data pages. -/
structure Column where
  pages : List PageData
deriving Repr, DecidableEq

/-- First ordinal of page `i` (pages cover consecutive ordinal ranges). -/
def Column.first_ordinal (col : Column) (i : Nat) : Nat :=
  ((col.pages.take i).map fun p => p.rows.length).sum

def Column.num_rows (col : Column) : Nat := col.first_ordinal col.pages.length

/-- All rows of the column in ordinal order. -/
def Column.to_rows (col : Column) : List (Option Int) :=
  (col.pages.map (·.rows)).flatten

/-- Modelled from the spec: `ParsedPage` — the in-memory decoded view of a
data page: ordinal bounds, content, and the positions of the two
decoders. -/
structure ParsedPage where
  first_ordinal : Nat
  rows : List (Option Int)
  has_null : Bool
  offset_in_page : Nat
  data_pos : Nat
  null_pos : Nat
deriving Repr, DecidableEq

def ParsedPage.num_rows (p : ParsedPage) : Nat := p.rows.length

/-- The stream the typed value decoder decodes: the page's non-null
values. -/
def ParsedPage.data_values (p : ParsedPage) : List Int := p.rows.filterMap id

/-- The RLE-encoded null bitmap (`true` = null). -/
def ParsedPage.null_bitmap (p : ParsedPage) : List Bool := p.rows.map Option.isNone

/-- Modelled from the spec: `ParsedPage::contains(ord)`. -/
def ParsedPage.contains (p : ParsedPage) (ord : Nat) : Bool :=
  decide (p.first_ordinal ≤ ord) && decide (ord < p.first_ordinal + p.num_rows)

/-- Modelled from the spec: `ParsedPage::has_remaining()`. -/
def ParsedPage.has_remaining (p : ParsedPage) : Bool :=
  decide (p.offset_in_page < p.num_rows)

/-- Modelled from the spec: `ParsedPage::remaining()`. -/
def ParsedPage.remaining (p : ParsedPage) : Nat := p.num_rows - p.offset_in_page

/-- Modelled from the spec: `data_decoder->next_batch(&n, dst)` — decode up
to `n` values from the current position, advancing it by the count actually
decoded. -/
def ParsedPage.data_next_batch (p : ParsedPage) (n : Nat) : ParsedPage × List Int :=
  let vals := (p.data_values.drop p.data_pos).take n
  ({ p with data_pos := p.data_pos + vals.length }, vals)

/-- Modelled from the spec: `data_decoder->seek_to_position_in_page(pos)`. -/
def ParsedPage.data_seek (p : ParsedPage) (pos : Nat) : ParsedPage :=
  { p with data_pos := pos }

/-- Modelled from the spec: `null_decoder.Skip(n)` — consume `n` bits and
return how many of them were nulls. -/
def ParsedPage.null_skip (p : ParsedPage) (n : Nat) : ParsedPage × Nat :=
  ({ p with null_pos := p.null_pos + n },
    ((p.null_bitmap.drop p.null_pos).take n).count true)

/-- Modelled from the spec: `null_decoder.GetNextRun(&is_null, max_run)` —
the next maximal run of equal bits, capped at `max_run`, consumed from the
decoder; at the end of the bitmap the run is empty. -/
def ParsedPage.null_get_next_run (p : ParsedPage) (max_run : Nat) :
    Bool × Nat × ParsedPage :=
  match p.null_bitmap.drop p.null_pos with
  | [] => (false, 0, p)
  | b :: bs =>
    let run := Nat.min max_run ((b :: bs).takeWhile fun x => x == b).length
    (b, run, { p with null_pos := p.null_pos + run })

/-- Modelled from the spec: re-create the null decoder over the page's null
bitmap (the backward-seek rewind of `_seek_to_pos_in_page`). -/
def ParsedPage.null_reset (p : ParsedPage) : ParsedPage :=
  { p with null_pos := 0 }

/-- `FileColumnIterator::_seek_to_pos_in_page`. -/
def seek_to_pos_in_page (page : ParsedPage) (offset_in_page : Nat) : ParsedPage :=
  if page.offset_in_page = offset_in_page then
    page -- fast path, do nothing
  else
    let step : Nat × ParsedPage :=
      if page.has_null then
        let fwd : Nat × Nat × ParsedPage :=
          if offset_in_page > page.offset_in_page then
            -- forward, reuse null bitmap
            (page.data_pos, offset_in_page - page.offset_in_page, page)
          else
            -- rewind null bitmap
            (0, offset_in_page, page.null_reset)
        let skipped := fwd.2.2.null_skip fwd.2.1
        (fwd.1 + fwd.2.1 - skipped.2, skipped.1)
      else
        (offset_in_page, page)
    let page2 := step.2.data_seek step.1
    { page2 with offset_in_page := offset_in_page }

/-- The scalar iterator's state: ordinal-index cursor (`page_iter`, valid
while `< pages.length`), current page (none before the first seek) and
current ordinal. -/
structure FileColumnIterator where
  page_iter : Nat
  page : Option ParsedPage
  current_ordinal : Nat
deriving Repr, DecidableEq

def FileColumnIterator.page_iter_valid (col : Column) (it : FileColumnIterator) : Bool :=
  decide (it.page_iter < col.pages.length)

/-- `_read_data_page` + `ParsedPage::create` for the data page at `idx`:
fresh decoders positioned at the page start. -/
def Column.read_page (col : Column) (idx : Nat) : ParsedPage :=
  { first_ordinal := col.first_ordinal idx
    rows := (col.pages.getD idx ⟨[], false⟩).rows
    has_null := (col.pages.getD idx ⟨[], false⟩).has_null
    offset_in_page := 0
    data_pos := 0
    null_pos := 0 }

/-- `ColumnReader::seek_at_or_before` via the ordinal index built over this
column's pages. -/
def Column.seek_at_or_before (col : Column) (ord : Nat) : Option Nat :=
  seek_at_or_before_go col.first_ordinal ord col.pages.length

/-- `FileColumnIterator::seek_to_ordinal(ord)`: reuse the current page when
it is loaded, contains `ord` and the page cursor is valid; otherwise seek
the ordinal index and read that data page; then position inside the page.
`none` is a non-OK status (`NotFound` from `seek_at_or_before`). -/
def FileColumnIterator.seek_to_ordinal (col : Column) (it : FileColumnIterator) (ord : Nat) :
    Option FileColumnIterator :=
  let need_reload :=
    match it.page with
    | none => true
    | some pg => !pg.contains ord || !it.page_iter_valid col
  let loaded : Option FileColumnIterator :=
    if need_reload then
      match col.seek_at_or_before ord with
      | none => none -- Status::NotFound
      | some idx => some { it with page_iter := idx, page := some (col.read_page idx) }
    else
      some it
  match loaded with
  | none => none
  | some it1 =>
    match it1.page with
    | none => none -- unreachable: a page is loaded at this point
    | some pg =>
      let pg2 := seek_to_pos_in_page pg (ord - pg.first_ordinal)
      some { it1 with page := some pg2, current_ordinal := ord }

/-- `FileColumnIterator::_load_next_page`: advance the page cursor; end of
stream when it runs off the index, else read the page and position at its
start. -/
def FileColumnIterator.load_next_page (col : Column) (it : FileColumnIterator) :
    FileColumnIterator × Bool :=
  let next_idx := it.page_iter + 1
  if next_idx < col.pages.length then
    let pg := seek_to_pos_in_page (col.read_page next_idx) 0
    ({ it with page_iter := next_idx, page := some pg }, false)
  else
    ({ it with page_iter := next_idx }, true)

/-- The inner `while (nrows_to_read > 0)` loop of `next_batch` for a page
with nulls: pull a run from the null decoder; decode the run from the data
decoder when it is a value run, else emit `run` null slots; stamp the null
bits and advance.  `fuel` bounds the iterations (each live iteration
consumes at least one row, so `nrows_to_read` iterations suffice); an empty
run means the bitmap is exhausted, which cannot happen on a well-formed
page. -/
def next_batch_null_runs :
    Nat → ParsedPage → List (Option Int) → Nat → Nat →
      ParsedPage × List (Option Int) × Nat
  | 0, page, dst, cur_ord, _ => (page, dst, cur_ord)
  | _ + 1, page, dst, cur_ord, 0 => (page, dst, cur_ord)
  | fuel + 1, page, dst, cur_ord, nrows + 1 =>
    let pulled := page.null_get_next_run (nrows + 1)
    let is_null := pulled.1
    let this_run := pulled.2.1
    let page1 := pulled.2.2
    if this_run = 0 then (page1, dst, cur_ord)
    else
      let read : ParsedPage × List (Option Int) :=
        if is_null then (page1, List.replicate this_run (none : Option Int))
        else
          let dn := page1.data_next_batch this_run
          (dn.1, dn.2.map some)
      let page2 := read.1
      next_batch_null_runs fuel
        { page2 with offset_in_page := page2.offset_in_page + this_run }
        (dst ++ read.2) (cur_ord + this_run) (nrows + 1 - this_run)

/-- The outer loop of `FileColumnIterator::next_batch` (column-block
flavour): refill pages as they are exhausted, decoding into `dst`; returns
the final iterator, the output rows and the rows still wanted (0 unless the
column ended).  `fuel` bounds the iterations: every live iteration either
consumes a row or advances the page cursor, so `n + pages + 1` suffices. -/
def next_batch_loop (col : Column) :
    Nat → FileColumnIterator → List (Option Int) → Nat →
      FileColumnIterator × List (Option Int) × Nat
  | 0, it, dst, remaining => (it, dst, remaining)
  | fuel + 1, it, dst, remaining =>
    if remaining = 0 then (it, dst, remaining)
    else
      let refill : FileColumnIterator × Bool :=
        match it.page with
        | some pg => if pg.has_remaining then (it, false) else it.load_next_page col
        | none => it.load_next_page col
      if refill.2 then (refill.1, dst, remaining)
      else
        match refill.1.page with
        | none => (refill.1, dst, remaining) -- unreachable after a successful refill
        | some pg =>
          let nrows_in_page := Nat.min remaining pg.remaining
          let it1 := refill.1
          if pg.has_null then
            let res := next_batch_null_runs nrows_in_page pg dst
              it1.current_ordinal nrows_in_page
            next_batch_loop col fuel
              { it1 with page := some res.1, current_ordinal := res.2.2 }
              res.2.1 (remaining - nrows_in_page)
          else
            let dn := pg.data_next_batch nrows_in_page
            let pg1 := dn.1
            let pg2 := { pg1 with offset_in_page := pg1.offset_in_page + nrows_in_page }
            next_batch_loop col fuel
              { it1 with
                page := some pg2
                current_ordinal := it1.current_ordinal + nrows_in_page }
              (dst ++ dn.2.map some) (remaining - nrows_in_page)

/-- `FileColumnIterator::next_batch(&n, dst, &has_null)` — returns the new
iterator state, the rows written to `dst`, and the row count `*n` on
return. -/
def FileColumnIterator.next_batch (col : Column) (it : FileColumnIterator) (n : Nat) :
    FileColumnIterator × List (Option Int) × Nat :=
  let res := next_batch_loop col (n + col.pages.length + 1) it [] n
  (res.1, res.2.1, n - res.2.2)

/-- A concrete two-page column (a null-bearing page followed by an all-value
page) used to exercise the iterator on a page boundary. -/
def sample_col : Column := ⟨[⟨[some 5, none], true⟩, ⟨[some 7, some 8], false⟩]⟩

/-- A freshly created iterator: no page loaded yet. -/
def sample_it : FileColumnIterator := ⟨0, none, 0⟩

/-- The iterator state after `seek_to_ordinal(1)` on `sample_col` from
`sample_it`: page 0 loaded, positioned at in-page offset 1 (the data
decoder has consumed the single value before it, the null decoder one
bit). -/
def sample_it1 : FileColumnIterator :=
  ⟨0, some ⟨0, [some 5, none], true, 1, 1, 1⟩, 1⟩

/-! ### Well-formedness and invariants of the scalar iterator -/

/-- Count of non-null entries. -/
def countSomes (l : List (Option Int)) : Nat := (l.filterMap id).length

/-- A well-formed column: every page has at least one row, and a page
whose footer says `has_null = false` stores no null rows. -/
def WfColumn (col : Column) : Prop :=
  ∀ p ∈ col.pages, p.rows ≠ [] ∧ (p.has_null = false → ∀ r ∈ p.rows, r.isSome = true)

/-- A parsed page cursor in a consistent state: the logical offset is in
bounds, the data decoder sits after exactly the non-null rows before the
offset, and (for a null-bearing page) the null decoder sits at the
offset. -/
def WfPageState (p : ParsedPage) : Prop :=
  p.offset_in_page ≤ p.num_rows ∧
  p.data_pos = countSomes (p.rows.take p.offset_in_page) ∧
  (p.has_null = true → p.null_pos = p.offset_in_page)

/-- The parsed page is the decoded image of the column's page `idx`. -/
def PageLoadedAt (col : Column) (idx : Nat) (pg : ParsedPage) : Prop :=
  idx < col.pages.length ∧
  pg.rows = (col.pages.getD idx ⟨[], false⟩).rows ∧
  pg.has_null = (col.pages.getD idx ⟨[], false⟩).has_null ∧
  pg.first_ordinal = col.first_ordinal idx

/-- A reachable iterator state: no page loaded yet, or a consistently
positioned image of some page whose index agrees with the page cursor
whenever the cursor is valid. -/
def WfIter (col : Column) (it : FileColumnIterator) : Prop :=
  match it.page with
  | none => True
  | some pg => ∃ idx, PageLoadedAt col idx pg ∧ WfPageState pg ∧
      (it.page_iter_valid col = true → it.page_iter = idx)

/-- The iterator is positioned at global ordinal `k`: its page is loaded
from the valid page cursor and the in-page offset realises `k`. -/
def Positioned (col : Column) (it : FileColumnIterator) (k : Nat) : Prop :=
  ∃ pg, it.page = some pg ∧ it.page_iter < col.pages.length ∧
    PageLoadedAt col it.page_iter pg ∧ WfPageState pg ∧
    pg.first_ordinal + pg.offset_in_page = k ∧ it.current_ordinal = k

/-- The C5 invariant, stated as the claim does: the values consumed by the
data decoder plus the nulls observed among the bits consumed by the null
decoder equal the page offset (and the null decoder sits at the offset). -/
def ParsedPage.null_inv (p : ParsedPage) : Prop :=
  p.null_pos = p.offset_in_page ∧
  p.data_pos + (p.null_bitmap.take p.null_pos).count true = p.offset_in_page

/-- The status-propagation skeleton of `ArrayFileColumnIterator::next_batch`.
The three child reads are abstracted by their outcomes: `offsets_result`
(the offsets/length child, yielding the row count `n`), `null_result` (the
null child) and `item_result` (the item child).  The offsets and item reads
are wrapped in `RETURN_IF_ERROR`; the null child is invoked only for a
nullable array and its returned status is discarded — the source calls
`_null_iterator->next_batch(&size, &null_view, &null_signs_has_null);`
with no `RETURN_IF_ERROR` around it.  (`item_size >= 0` is always true for
an unsigned `size_t`, so the item read always happens.) -/
def ArrayFileColumnIterator.next_batch_status (is_nullable : Bool)
    (offsets_result : Except Status Nat) (null_result : Except Status Unit)
    (item_result : Except Status Unit) : Except Status Nat :=
  match offsets_result with
  | .error e => .error e        -- RETURN_IF_ERROR(_length_iterator->next_batch(...))
  | .ok n =>
    if n = 0 then .ok 0
    else
      -- 2. read null: status dropped on the floor
      let _discarded := if is_nullable then some null_result else none
      -- 3. read item
      match item_result with
      | .error e => .error e    -- RETURN_IF_ERROR(_item_iterator->next_batch(...))
      | .ok _ => .ok n

/-! ### `DefaultValueColumnIterator` -/

/-- `DefaultValueColumnIterator::init`.  The external type machinery for a
non-`"NULL"` default (CHAR zero-padding, string copies, `from_string`,
the `ARRAY` rejection) is abstracted by `materialize_result`, the status of
materialising the value.  `DCHECK(_is_nullable)` is a debug-build
assertion: it produces no status, so release builds proceed regardless of
nullability.  Returns `_is_default_value_null`. -/
def DefaultValueColumnIterator.init (has_default_value : Bool) (default_value : String)
    (is_nullable : Bool) (materialize_result : Except Status Unit) : Except Status Bool :=
  if has_default_value then
    if default_value = "NULL" then
      -- DCHECK(_is_nullable);
      .ok true
    else
      match materialize_result with
      | .error e => .error e
      | .ok _ => .ok false
  else if is_nullable then
    -- no default value but nullable: null is the default
    .ok true
  else
    .error (Status.InternalError
      "invalid default value column for no default value and not nullable")

/-- `DefaultValueColumnIterator::next_batch` (column-block flavour): fill
`n` rows with null markers when `_is_default_value_null`, else with the
materialised value; `has_null` reports which case ran. -/
def DefaultValueColumnIterator.next_batch (is_default_value_null : Bool) (mem_value : Int)
    (n : Nat) : List (Option Int) × Bool :=
  if is_default_value_null then (List.replicate n none, true)
  else (List.replicate n (some mem_value), false)

/-! ### Basic semantics lemmas for the modelled collaborators -/

theorem RowRanges.covers_union (a b : RowRanges) (o : Nat) :
    (a.ranges_union b).covers o = (a.covers o || b.covers o) := by
  simp [RowRanges.covers, RowRanges.ranges_union, List.any_append]

theorem RowRanges.covers_add (a : RowRanges) (r : Nat × Nat) (o : Nat) :
    (a.add r).covers o = (a.covers o || (decide (r.1 ≤ o) && decide (o < r.2))) := by
  simp [RowRanges.covers, RowRanges.add, List.any_append]

theorem RowRanges.covers_eq_true_iff (rr : RowRanges) (o : Nat) :
    rr.covers o = true ↔ ∃ r ∈ rr.ranges, r.1 ≤ o ∧ o < r.2 := by
  simp [RowRanges.covers]

theorem RowRanges.covers_intersection (a b : RowRanges) (o : Nat) :
    (a.ranges_intersection b).covers o = (a.covers o && b.covers o) := by
  rw [Bool.eq_iff_iff, Bool.and_eq_true]
  simp only [RowRanges.covers_eq_true_iff, RowRanges.ranges_intersection]
  constructor
  · rintro ⟨r, hr, h1, h2⟩
    simp only [List.mem_flatten, List.mem_map] at hr
    obtain ⟨l, ⟨p, hp, rfl⟩, hrl⟩ := hr
    obtain ⟨s, hs, rfl⟩ := List.mem_map.mp hrl
    rw [Nat.max_le] at h1
    rw [Nat.lt_min] at h2
    exact ⟨⟨p, hp, h1.1, h2.1⟩, ⟨s, hs, h1.2, h2.2⟩⟩
  · rintro ⟨⟨r, hr, hr1, hr2⟩, ⟨s, hs, hs1, hs2⟩⟩
    refine ⟨(Nat.max r.1 s.1, Nat.min r.2 s.2), ?_, ?_, ?_⟩
    · simp only [List.mem_flatten, List.mem_map]
      exact ⟨b.ranges.map fun t => (Nat.max r.1 t.1, Nat.min r.2 t.2),
        ⟨r, hr, rfl⟩, List.mem_map.mpr ⟨s, hs, rfl⟩⟩
    · exact Nat.max_le.mpr ⟨hr1, hs1⟩
    · exact Nat.lt_min.mpr ⟨hr2, hs2⟩

theorem parse_zone_map_indep (zone_map : ZoneMapPB) (a b a' b' : WrapperFieldVal)
    (h : (zone_map.has_not_null || zone_map.has_null) = true) :
    parse_zone_map zone_map a b = parse_zone_map zone_map a' b' := by
  cases hnn : zone_map.has_not_null <;> cases hn : zone_map.has_null <;>
    simp_all [parse_zone_map]

theorem get_filtered_pages_go_mem (cond delete_condition : Option CondColumn) :
    ∀ (zone_maps : List ZoneMapPB) (mv : WrapperFieldVal × WrapperFieldVal) (i0 q : Nat),
      q ∈ get_filtered_pages_go cond delete_condition zone_maps mv i0 ↔
        ∃ j zm, zone_maps[j]? = some zm ∧ q = i0 + j ∧
          page_accepted_spec zm cond delete_condition = true := by
  intro zone_maps
  induction zone_maps with
  | nil =>
    intro mv i0 q
    simp [get_filtered_pages_go]
  | cons zm0 rest ih =>
    intro mv i0 q
    have hsplit : (∃ j zm, (zm0 :: rest)[j]? = some zm ∧ q = i0 + j ∧
        page_accepted_spec zm cond delete_condition = true) ↔
        ((q = i0 ∧ page_accepted_spec zm0 cond delete_condition = true) ∨
          (∃ j zm, rest[j]? = some zm ∧ q = (i0 + 1) + j ∧
            page_accepted_spec zm cond delete_condition = true)) := by
      constructor
      · rintro ⟨j, zm, hj, hq, hacc⟩
        cases j with
        | zero =>
          simp only [List.getElem?_cons_zero, Option.some.injEq] at hj
          subst hj
          exact Or.inl ⟨by omega, hacc⟩
        | succ j =>
          simp only [List.getElem?_cons_succ] at hj
          exact Or.inr ⟨j, zm, hj, by omega, hacc⟩
      · rintro (⟨hq, hacc⟩ | ⟨j, zm, hj, hq, hacc⟩)
        · exact ⟨0, zm0, by simp, by omega, hacc⟩
        · exact ⟨j + 1, zm, by simpa using hj, by omega, hacc⟩
    rw [hsplit]
    by_cases hpa : zm0.pass_all = true
    · have hacc0 : page_accepted_spec zm0 cond delete_condition = true := by
        simp [page_accepted_spec, hpa]
      have hunfold : get_filtered_pages_go cond delete_condition (zm0 :: rest) mv i0 =
          i0 :: get_filtered_pages_go cond delete_condition rest mv (i0 + 1) := by
        simp [get_filtered_pages_go, hpa]
      rw [hunfold, List.mem_cons, ih]
      constructor
      · rintro (rfl | h)
        · exact Or.inl ⟨rfl, hacc0⟩
        · exact Or.inr h
      · rintro (⟨rfl, _⟩ | h)
        · exact Or.inl rfl
        · exact Or.inr h
    · have hpa' : zm0.pass_all = false := by
        cases h : zm0.pass_all <;> simp_all
      by_cases hmatch :
          zone_map_match_condition zm0 (parse_zone_map zm0 mv.1 mv.2).1
            (parse_zone_map zm0 mv.1 mv.2).2 cond = true
      · have hne : (zm0.has_not_null || zm0.has_null) = true := by
          by_contra hcon
          have h1 : zm0.has_not_null = false := by
            cases h : zm0.has_not_null <;> simp_all
          have h2 : zm0.has_null = false := by
            cases h : zm0.has_null <;> simp_all
          simp [zone_map_match_condition, h1, h2] at hmatch
        have hcanon : parse_zone_map zm0 mv.1 mv.2 = parse_zone_map zm0 none none :=
          parse_zone_map_indep zm0 mv.1 mv.2 none none hne
        have hacc_eq : page_accepted_spec zm0 cond delete_condition =
            delete_allows delete_condition (parse_zone_map zm0 mv.1 mv.2) := by
          rw [hcanon] at hmatch ⊢
          simp [page_accepted_spec, hpa', hne, hmatch]
        by_cases hread : delete_allows delete_condition (parse_zone_map zm0 mv.1 mv.2) = true
        · have hacc0 : page_accepted_spec zm0 cond delete_condition = true := by
            rw [hacc_eq]
            exact hread
          have hunfold : get_filtered_pages_go cond delete_condition (zm0 :: rest) mv i0 =
              i0 :: get_filtered_pages_go cond delete_condition rest
                (parse_zone_map zm0 mv.1 mv.2) (i0 + 1) := by
            simp [get_filtered_pages_go, hpa', hmatch, hread]
          rw [hunfold, List.mem_cons, ih]
          constructor
          · rintro (rfl | h)
            · exact Or.inl ⟨rfl, hacc0⟩
            · exact Or.inr h
          · rintro (⟨rfl, _⟩ | h)
            · exact Or.inl rfl
            · exact Or.inr h
        · have hread' : delete_allows delete_condition (parse_zone_map zm0 mv.1 mv.2) = false := by
            cases h : delete_allows delete_condition (parse_zone_map zm0 mv.1 mv.2) <;> simp_all
          have hacc0 : page_accepted_spec zm0 cond delete_condition = false := by
            rw [hacc_eq]
            exact hread'
          have hunfold : get_filtered_pages_go cond delete_condition (zm0 :: rest) mv i0 =
              get_filtered_pages_go cond delete_condition rest
                (parse_zone_map zm0 mv.1 mv.2) (i0 + 1) := by
            simp [get_filtered_pages_go, hpa', hmatch, hread']
          rw [hunfold, ih]
          constructor
          · intro h
            exact Or.inr h
          · rintro (⟨rfl, hcon⟩ | h)
            · rw [hacc0] at hcon
              exact absurd hcon (by simp)
            · exact h
      · have hmatch' : zone_map_match_condition zm0 (parse_zone_map zm0 mv.1 mv.2).1
            (parse_zone_map zm0 mv.1 mv.2).2 cond = false := by
          cases h : zone_map_match_condition zm0 (parse_zone_map zm0 mv.1 mv.2).1
            (parse_zone_map zm0 mv.1 mv.2).2 cond <;> simp_all
        have hacc0 : page_accepted_spec zm0 cond delete_condition = false := by
          by_cases hne : (zm0.has_not_null || zm0.has_null) = true
          · have hcanon : parse_zone_map zm0 mv.1 mv.2 = parse_zone_map zm0 none none :=
              parse_zone_map_indep zm0 mv.1 mv.2 none none hne
            rw [hcanon] at hmatch'
            simp [page_accepted_spec, hpa', hmatch']
          · have : (zm0.has_not_null || zm0.has_null) = false := by
              cases h : (zm0.has_not_null || zm0.has_null) <;> simp_all
            simp [page_accepted_spec, hpa', this]
        have hunfold : get_filtered_pages_go cond delete_condition (zm0 :: rest) mv i0 =
            get_filtered_pages_go cond delete_condition rest
              (parse_zone_map zm0 mv.1 mv.2) (i0 + 1) := by
          simp [get_filtered_pages_go, hpa', hmatch']
        rw [hunfold, ih]
        constructor
        · intro h
          exact Or.inr h
        · rintro (⟨rfl, hcon⟩ | h)
          · rw [hacc0] at hcon
            exact absurd hcon (by simp)
          · exact h

theorem get_filtered_pages_mem (zone_maps : List ZoneMapPB)
    (cond delete_condition : Option CondColumn) (q : Nat) :
    q ∈ get_filtered_pages zone_maps cond delete_condition ↔
      ∃ zm, zone_maps[q]? = some zm ∧ page_accepted_spec zm cond delete_condition = true := by
  rw [get_filtered_pages, get_filtered_pages_go_mem]
  constructor
  · rintro ⟨j, zm, hj, hq, hacc⟩
    have : q = j := by omega
    subst this
    exact ⟨zm, hj, hacc⟩
  · rintro ⟨zm, hj, hacc⟩
    exact ⟨q, zm, hj, by omega, hacc⟩

theorem covers_calculate_row_ranges_go (oi : OrdinalIndexReader) (o : Nat) :
    ∀ (idxs : List Nat) (acc : RowRanges),
      (idxs.foldl (fun acc i =>
          RowRanges.ranges_union acc
            (RowRanges.create_single (oi.get_first_ordinal i) (oi.get_last_ordinal i + 1)))
          acc).covers o = true ↔
        (acc.covers o = true ∨
          ∃ i ∈ idxs, oi.get_first_ordinal i ≤ o ∧ o < oi.get_last_ordinal i + 1) := by
  intro idxs
  induction idxs with
  | nil => simp
  | cons i rest ih =>
    intro acc
    rw [List.foldl_cons, ih]
    rw [RowRanges.covers_union]
    simp only [Bool.or_eq_true, List.mem_cons]
    constructor
    · rintro (h | h)
      · rcases h with h | h
        · exact Or.inl h
        · refine Or.inr ⟨i, Or.inl rfl, ?_⟩
          simpa [RowRanges.covers, RowRanges.create_single] using h
      · obtain ⟨j, hj, hjo⟩ := h
        exact Or.inr ⟨j, Or.inr hj, hjo⟩
    · rintro (h | ⟨j, hj | hj, hjo⟩)
      · exact Or.inl (Or.inl h)
      · subst hj
        refine Or.inl (Or.inr ?_)
        simpa [RowRanges.covers, RowRanges.create_single] using hjo
      · exact Or.inr ⟨j, hj, hjo⟩

/-- **C2.** `get_row_ranges_by_zone_map(cond, delete_cond, ranges_out)`
replaces any pre-existing content of `ranges_out`: the result does not
depend on the previous value of `ranges_out`, and an ordinal is covered by
the result exactly when it lies in `[first_ordinal(i), last_ordinal(i)+1)`
for some accepted page `i`. -/
theorem get_row_ranges_by_zone_map_replaces (oi : OrdinalIndexReader)
    (zone_maps : List ZoneMapPB) (cond delete_condition : Option CondColumn)
    (row_ranges row_ranges' : RowRanges) (o : Nat) :
    get_row_ranges_by_zone_map oi zone_maps cond delete_condition row_ranges =
      get_row_ranges_by_zone_map oi zone_maps cond delete_condition row_ranges' ∧
    ((get_row_ranges_by_zone_map oi zone_maps cond delete_condition row_ranges).covers o = true ↔
      ∃ i ∈ get_filtered_pages zone_maps cond delete_condition,
        oi.get_first_ordinal i ≤ o ∧ o < oi.get_last_ordinal i + 1) := by
  constructor
  · rfl
  · rw [get_row_ranges_by_zone_map, calculate_row_ranges,
      covers_calculate_row_ranges_go]
    simp [RowRanges.covers, RowRanges.clear]

/-- **C3 counterexample.** A page whose zone map has
`!has_not_null && !has_null` but `pass_all` set **is** accepted by
`_get_filtered_pages` (the `pass_all` test precedes the empty-zone test),
refuting the claim's assertion that such a page is never accepted. -/
theorem zone_map_empty_pass_all_page_accepted :
    0 ∈ get_filtered_pages [⟨"", "", false, false, true⟩] none none ∧
      (⟨"", "", false, false, true⟩ : ZoneMapPB).has_not_null = false ∧
      (⟨"", "", false, false, true⟩ : ZoneMapPB).has_null = false := by
  refine ⟨?_, rfl, rfl⟩
  simp [get_filtered_pages, get_filtered_pages_go]

/-- **C3 (amended).** A data page is accepted by `_get_filtered_pages` iff
`pass_all` holds (in which case neither the condition nor the delete
condition influences the decision), or else the page's zone map is
non-empty, the condition matches it (a null condition matches), and the
delete condition, when present, does not return `DEL_SATISFIED` on the
parsed `{min, max}`.  A page with `!has_not_null && !has_null` and
`!pass_all` is never accepted; with `pass_all` set such a page **is**
accepted. -/
theorem get_filtered_pages_accept_iff (zone_maps : List ZoneMapPB)
    (cond delete_condition : Option CondColumn) (q : Nat) :
    (q ∈ get_filtered_pages zone_maps cond delete_condition ↔
      ∃ zm, zone_maps[q]? = some zm ∧
        (zm.pass_all = true ∨
          ((zm.has_not_null || zm.has_null) = true ∧
            zone_map_match_condition zm (parse_zone_map zm none none).1
              (parse_zone_map zm none none).2 cond = true ∧
            (∀ d, delete_condition = some d →
              d.del_eval ((parse_zone_map zm none none).1, (parse_zone_map zm none none).2) ≠
                DelEvalResult.del_satisfied)))) ∧
    (∀ zm cond₂ delete₂, zone_maps[q]? = some zm → zm.pass_all = true →
      (q ∈ get_filtered_pages zone_maps cond delete_condition ↔
        q ∈ get_filtered_pages zone_maps cond₂ delete₂)) ∧
    (∀ zm, zone_maps[q]? = some zm → zm.has_not_null = false → zm.has_null = false →
      zm.pass_all = false → q ∉ get_filtered_pages zone_maps cond delete_condition) := by
  have hchar : ∀ (c d : Option CondColumn) (zm : ZoneMapPB),
      page_accepted_spec zm c d = true ↔
        (zm.pass_all = true ∨
          ((zm.has_not_null || zm.has_null) = true ∧
            zone_map_match_condition zm (parse_zone_map zm none none).1
              (parse_zone_map zm none none).2 c = true ∧
            (∀ dd, d = some dd →
              dd.del_eval ((parse_zone_map zm none none).1, (parse_zone_map zm none none).2) ≠
                DelEvalResult.del_satisfied))) := by
    intro c d zm
    cases d with
    | none => simp [page_accepted_spec, delete_allows]
    | some dd =>
      simp only [page_accepted_spec, delete_allows, Bool.or_eq_true, Bool.and_eq_true]
      constructor
      · rintro (h | ⟨⟨h1, h2⟩, h3⟩)
        · exact Or.inl h
        · refine Or.inr ⟨h1, h2, ?_⟩
          rintro dd' hdd'
          injection hdd' with hdd'
          subst hdd'
          simpa using h3
      · rintro (h | ⟨h1, h2, h3⟩)
        · exact Or.inl h
        · refine Or.inr ⟨⟨h1, h2⟩, ?_⟩
          simpa using h3 dd rfl
  refine ⟨?_, ?_, ?_⟩
  · rw [get_filtered_pages_mem]
    constructor
    · rintro ⟨zm, hq, hacc⟩
      exact ⟨zm, hq, (hchar cond delete_condition zm).mp hacc⟩
    · rintro ⟨zm, hq, h⟩
      exact ⟨zm, hq, (hchar cond delete_condition zm).mpr h⟩
  · intro zm cond₂ delete₂ hq hpa
    rw [get_filtered_pages_mem, get_filtered_pages_mem]
    constructor
    · intro _
      exact ⟨zm, hq, by simp [page_accepted_spec, hpa]⟩
    · intro _
      exact ⟨zm, hq, by simp [page_accepted_spec, hpa]⟩
  · intro zm hq h1 h2 h3 hmem
    rw [get_filtered_pages_mem] at hmem
    obtain ⟨zm2, hq2, hacc⟩ := hmem
    rw [hq] at hq2
    injection hq2 with hq2
    subst hq2
    simp [page_accepted_spec, h1, h2, h3, zone_map_match_condition] at hacc

theorem wf_firsts_mono (oi : OrdinalIndexReader) (hwf : WfOrdinalIndex oi) :
    ∀ j, j < oi.num_pages → ∀ i, i ≤ j → oi.get_first_ordinal i ≤ oi.get_first_ordinal j := by
  intro j
  induction j with
  | zero =>
    intro _ i hi
    interval_cases i
    exact Nat.le_refl _
  | succ j ih =>
    intro hj i hi
    rcases Nat.lt_or_ge i (j + 1) with h | h
    · have h1 : oi.get_first_ordinal i ≤ oi.get_first_ordinal j :=
        ih (by omega) i (by omega)
      have h2 : oi.get_first_ordinal (j + 1) = oi.get_last_ordinal j + 1 :=
        hwf.2.2 j (by omega)
      have h3 : oi.get_first_ordinal j ≤ oi.get_last_ordinal j := hwf.1 j (by omega)
      omega
    · have : i = j + 1 := by omega
      subst this
      exact Nat.le_refl _

theorem seek_at_or_before_go_eq_some (firsts : Nat → Nat) (ord : Nat) :
    ∀ n j, seek_at_or_before_go firsts ord n = some j ↔
      (j < n ∧ firsts j ≤ ord ∧ ∀ i, j < i → i < n → ord < firsts i) := by
  intro n
  induction n with
  | zero =>
    intro j
    simp [seek_at_or_before_go]
  | succ n ih =>
    intro j
    rw [seek_at_or_before_go]
    by_cases h : firsts n ≤ ord
    · rw [if_pos h]
      constructor
      · intro hj
        injection hj with hj
        subst hj
        exact ⟨by omega, h, by omega⟩
      · rintro ⟨hj1, _, hj3⟩
        rcases Nat.lt_or_ge j n with hlt | hge
        · exact absurd h (Nat.not_le.mpr (hj3 n hlt (by omega)))
        · have : j = n := by omega
          subst this
          rfl
    · rw [if_neg h]
      rw [ih]
      constructor
      · rintro ⟨hj1, hj2, hj3⟩
        refine ⟨by omega, hj2, ?_⟩
        intro i hji hin
        rcases Nat.lt_or_ge i n with hlt | hge
        · exact hj3 i hji hlt
        · have : i = n := by omega
          subst this
          omega
      · rintro ⟨hj1, hj2, hj3⟩
        have hjn : j ≠ n := by
          rintro rfl
          exact h hj2
        exact ⟨by omega, hj2, fun i hji hin => hj3 i hji (by omega)⟩

theorem seek_at_or_before_go_eq_none (firsts : Nat → Nat) (ord : Nat) :
    ∀ n, seek_at_or_before_go firsts ord n = none ↔ ∀ i, i < n → ord < firsts i := by
  intro n
  induction n with
  | zero => simp [seek_at_or_before_go]
  | succ n ih =>
    rw [seek_at_or_before_go]
    by_cases h : firsts n ≤ ord
    · rw [if_pos h]
      constructor
      · intro hcon
        exact absurd hcon (by simp)
      · intro hall
        exact absurd h (Nat.not_le.mpr (hall n (by omega)))
    · rw [if_neg h, ih]
      constructor
      · intro hall i hi
        rcases Nat.lt_or_ge i n with hlt | hge
        · exact hall i hlt
        · have : i = n := by omega
          subst this
          omega
      · intro hall i hi
        exact hall i (by omega)

theorem mem_insert_page_id (acc : List Nat) (pid q : Nat) :
    q ∈ insert_page_id acc pid ↔ q ∈ acc ∨ q = pid := by
  rw [insert_page_id]
  by_cases h : pid ∈ acc
  · rw [if_pos h]
    constructor
    · exact Or.inl
    · rintro (hq | rfl)
      · exact hq
      · exact h
  · rw [if_neg h]
    simp

theorem mem_covered_loop (oi : OrdinalIndexReader) (hwf : WfOrdinalIndex oi) (to_ord : Nat) :
    ∀ steps pidx idx acc q, oi.num_pages ≤ pidx + steps →
      (q ∈ covered_loop oi to_ord idx pidx steps acc ↔
        q ∈ acc ∨ (idx < to_ord ∧ pidx ≤ q ∧ q < oi.num_pages ∧
          (q = pidx ∨ oi.get_first_ordinal q < to_ord))) := by
  intro steps
  induction steps with
  | zero =>
    intro pidx idx acc q hsteps
    rw [covered_loop]
    constructor
    · exact Or.inl
    · rintro (hq | ⟨_, h2, h3, _⟩)
      · exact hq
      · omega
  | succ steps ih =>
    intro pidx idx acc q hsteps
    rw [covered_loop]
    by_cases hguard : idx < to_ord ∧ pidx < oi.num_pages
    · rw [if_pos hguard]
      rw [ih (pidx + 1) (oi.get_last_ordinal pidx + 1) (insert_page_id acc pidx) q (by omega)]
      rw [mem_insert_page_id]
      constructor
      · rintro ((hq | rfl) | ⟨h1, h2, h3, h4⟩)
        · exact Or.inl hq
        · exact Or.inr ⟨hguard.1, Nat.le_refl _, hguard.2, Or.inl rfl⟩
        · refine Or.inr ⟨hguard.1, by omega, h3, Or.inr ?_⟩
          rcases h4 with rfl | h4
          · -- q = pidx + 1 : its first ordinal is last(pidx)+1, which is < to_ord
            have := hwf.2.2 pidx (by omega)
            omega
          · exact h4
      · rintro (hq | ⟨h1, h2, h3, h4⟩)
        · exact Or.inl (Or.inl hq)
        · rcases Nat.eq_or_lt_of_le h2 with rfl | hlt
          · exact Or.inl (Or.inr rfl)
          · refine Or.inr ⟨?_, by omega, h3, Or.inr ?_⟩
            · -- last(pidx) + 1 = first(pidx+1) ≤ first(q) < to_ord
              have hfq : oi.get_first_ordinal q < to_ord := by
                rcases h4 with rfl | h4
                · omega
                · exact h4
              have heq : oi.get_first_ordinal (pidx + 1) = oi.get_last_ordinal pidx + 1 :=
                hwf.2.2 pidx (by omega)
              have hmono : oi.get_first_ordinal (pidx + 1) ≤ oi.get_first_ordinal q :=
                wf_firsts_mono oi hwf q h3 (pidx + 1) (by omega)
              omega
            · rcases h4 with rfl | h4
              · omega
              · exact h4
    · rw [if_neg hguard]
      constructor
      · exact Or.inl
      · rintro (hq | ⟨h1, h2, h3, _⟩)
        · exact hq
        · exact absurd ⟨h1, by omega⟩ hguard

theorem mem_covered_page_ids (oi : OrdinalIndexReader) (hwf : WfOrdinalIndex oi)
    (rr : RowRanges) (q : Nat) :
    q ∈ covered_page_ids oi rr ↔ ∃ r ∈ rr.ranges, range_covers_page oi r q := by
  rw [covered_page_ids]
  have main : ∀ (l : List (Nat × Nat)) (acc : List Nat),
      q ∈ l.foldl (fun acc r =>
        match oi.seek_at_or_before r.1 with
        | some pidx => covered_loop oi r.2 r.1 pidx (oi.num_pages - pidx) acc
        | none => acc) acc ↔
      q ∈ acc ∨ ∃ r ∈ l, range_covers_page oi r q := by
    intro l
    induction l with
    | nil => simp
    | cons r rest ih =>
      intro acc
      rw [List.foldl_cons, ih]
      have hstep : (q ∈ (match oi.seek_at_or_before r.1 with
          | some pidx => covered_loop oi r.2 r.1 pidx (oi.num_pages - pidx) acc
          | none => acc)) ↔ (q ∈ acc ∨ range_covers_page oi r q) := by
        cases hseek : oi.seek_at_or_before r.1 with
        | none =>
          simp [range_covers_page, hseek]
        | some pidx =>
          have hpidx : pidx < oi.num_pages := by
            have := (seek_at_or_before_go_eq_some oi.get_first_ordinal r.1 oi.num_pages
              pidx).mp hseek
            exact this.1
          rw [mem_covered_loop oi hwf r.2 (oi.num_pages - pidx) pidx r.1 acc q (by omega)]
          simp only [range_covers_page, hseek]
      rw [hstep]
      constructor
      · rintro ((hq | hr) | ⟨s, hs, hsq⟩)
        · exact Or.inl hq
        · exact Or.inr ⟨r, List.mem_cons_self r rest, hr⟩
        · exact Or.inr ⟨s, List.mem_cons_of_mem r hs, hsq⟩
      · rintro (hq | ⟨s, hs, hsq⟩)
        · exact Or.inl (Or.inl hq)
        · rcases List.mem_cons.mp hs with rfl | hs
          · exact Or.inl (Or.inr hsq)
          · exact Or.inr ⟨s, hs, hsq⟩
  rw [main]
  simp

theorem covers_bf_candidate (oi : OrdinalIndexReader) (c : CondColumn) (bf_of : Nat → Nat)
    (o : Nat) :
    ∀ (pids : List Nat) (acc : RowRanges),
      (pids.foldl (fun acc pid =>
          if c.eval_bf (bf_of pid) then
            acc.add (oi.get_first_ordinal pid, oi.get_last_ordinal pid + 1)
          else acc) acc).covers o = true ↔
        (acc.covers o = true ∨ ∃ pid ∈ pids, c.eval_bf (bf_of pid) = true ∧
          oi.get_first_ordinal pid ≤ o ∧ o < oi.get_last_ordinal pid + 1) := by
  intro pids
  induction pids with
  | nil => simp
  | cons pid rest ih =>
    intro acc
    rw [List.foldl_cons, ih]
    by_cases hbf : c.eval_bf (bf_of pid) = true
    · rw [if_pos hbf, RowRanges.covers_add]
      simp only [Bool.or_eq_true, Bool.and_eq_true, decide_eq_true_eq, List.mem_cons]
      constructor
      · rintro ((h | h) | ⟨p, hp, hpo⟩)
        · exact Or.inl h
        · exact Or.inr ⟨pid, Or.inl rfl, hbf, h.1, h.2⟩
        · exact Or.inr ⟨p, Or.inr hp, hpo⟩
      · rintro (h | ⟨p, rfl | hp, hpo⟩)
        · exact Or.inl (Or.inl h)
        · exact Or.inl (Or.inr ⟨hpo.2.1, hpo.2.2⟩)
        · exact Or.inr ⟨p, hp, hpo⟩
    · have hbf' : c.eval_bf (bf_of pid) = false := by
        cases h : c.eval_bf (bf_of pid) <;> simp_all
      rw [if_neg hbf]
      simp only [List.mem_cons]
      constructor
      · rintro (h | ⟨p, hp, hpo⟩)
        · exact Or.inl h
        · exact Or.inr ⟨p, Or.inr hp, hpo⟩
      · rintro (h | ⟨p, rfl | hp, hpo⟩)
        · exact Or.inl h
        · rw [hbf'] at hpo
          exact absurd hpo.1 Bool.false_ne_true
        · exact Or.inr ⟨p, hp, hpo⟩

/-- **C4.** With a non-null condition, `get_row_ranges_by_bloom_filter`
sets `ranges_in_out` to the intersection of its input value with the union
of the ordinal ranges of those pages covered by the input ranges whose
bloom filter the condition matches; consequently the output covers only
ordinals the input covers. -/
theorem get_row_ranges_by_bloom_filter_spec (oi : OrdinalIndexReader)
    (hwf : WfOrdinalIndex oi) (bf_of : Nat → Nat) (c : CondColumn) (rr : RowRanges) :
    ∃ res, ColumnReader.get_row_ranges_by_bloom_filter oi bf_of (some c) rr = some res ∧
      (∀ o, res.covers o = true ↔
        (rr.covers o = true ∧ ∃ q, q < oi.num_pages ∧ c.eval_bf (bf_of q) = true ∧
          oi.get_first_ordinal q ≤ o ∧ o < oi.get_last_ordinal q + 1 ∧
          ∃ r ∈ rr.ranges, r.1 < r.2 ∧ r.1 ≤ oi.get_last_ordinal q ∧
            oi.get_first_ordinal q < r.2)) ∧
      (∀ o, res.covers o = true → rr.covers o = true) := by
  refine ⟨_, rfl, ?_, ?_⟩
  · intro o
    rw [RowRanges.covers_intersection, Bool.and_eq_true]
    constructor
    · rintro ⟨hin, hcand⟩
      refine ⟨hin, ?_⟩
      rw [covers_bf_candidate] at hcand
      rcases hcand with hempty | ⟨pid, hpid, hbf, h1, h2⟩
      · simp [RowRanges.covers] at hempty
      · rw [mem_covered_page_ids oi hwf] at hpid
        obtain ⟨_, _, hrcp⟩ := hpid
        have hq : pid < oi.num_pages := by
          rw [range_covers_page] at hrcp
          cases hseek : oi.seek_at_or_before _ with
          | none => rw [hseek] at hrcp; exact absurd hrcp id
          | some p => rw [hseek] at hrcp; exact hrcp.2.2.1
        -- the range of rr that contains o overlaps page pid
        rw [RowRanges.covers_eq_true_iff] at hin
        obtain ⟨r, hr, hr1, hr2⟩ := hin
        exact ⟨pid, hq, hbf, h1, h2, r, hr, by omega, by omega, by omega⟩
    · rintro ⟨hin, q, hq, hbf, h1, h2, r, hr, hrne, hrlast, hrfirst⟩
      refine ⟨hin, ?_⟩
      rw [covers_bf_candidate]
      refine Or.inr ⟨q, ?_, hbf, h1, h2⟩
      rw [mem_covered_page_ids oi hwf]
      refine ⟨r, hr, ?_⟩
      rw [range_covers_page]
      cases hseek : oi.seek_at_or_before r.1 with
      | none =>
        rw [OrdinalIndexReader.seek_at_or_before, seek_at_or_before_go_eq_none] at hseek
        have h0 : r.1 < oi.get_first_ordinal 0 := hseek 0 (by omega)
        rw [hwf.2.1 (by omega)] at h0
        omega
      | some pidx =>
        rw [OrdinalIndexReader.seek_at_or_before, seek_at_or_before_go_eq_some] at hseek
        obtain ⟨hp1, hp2, hp3⟩ := hseek
        refine ⟨hrne, ?_, hq, Or.inr hrfirst⟩
        -- pidx ≤ q: otherwise first(q+1) ≤ first(pidx) ≤ r.1 while r.1 ≤ last(q)
        by_contra hcon
        have hq1 : q + 1 ≤ pidx := by omega
        have heq : oi.get_first_ordinal (q + 1) = oi.get_last_ordinal q + 1 :=
          hwf.2.2 q (by omega)
        have hmono : oi.get_first_ordinal (q + 1) ≤ oi.get_first_ordinal pidx :=
          wf_firsts_mono oi hwf pidx hp1 (q + 1) hq1
        omega
  · intro o h
    rw [RowRanges.covers_intersection, Bool.and_eq_true] at h
    exact h.1

/-- Witness for C4 on a concrete two-page index. -/
theorem get_row_ranges_by_bloom_filter_spec_witness :
    ∃ res, ColumnReader.get_row_ranges_by_bloom_filter ⟨[(0, 2), (3, 5)]⟩ (fun _ => 0)
        (some cond_true) ⟨[(1, 4)]⟩ = some res ∧ res.covers 3 = true := by
  obtain ⟨res, hres, hiff, _⟩ :=
    get_row_ranges_by_bloom_filter_spec ⟨[(0, 2), (3, 5)]⟩
      (by
        refine ⟨?_, ?_, ?_⟩ <;> decide)
      (fun _ => 0) cond_true ⟨[(1, 4)]⟩
  refine ⟨res, hres, ?_⟩
  rw [hiff 3]
  refine ⟨by decide, 1, by decide, rfl, by decide, by decide, (1, 4), by decide, by decide,
    by decide, by decide⟩

/-- **C10.** `ColumnReader::get_row_ranges_by_bloom_filter` has the unstated
precondition that `cond_column` is non-null: with covered pages present a
null condition is dereferenced (modelled as `none`), while a non-null
condition always yields a result; the iterator-level wrapper guards the
null condition (and any inability to bloom-filter) by leaving the input
ranges unchanged. -/
theorem get_row_ranges_by_bloom_filter_null_cond (oi : OrdinalIndexReader) (bf_of : Nat → Nat)
    (rr : RowRanges) (has_bloom_filter_index : Bool) :
    (covered_page_ids oi rr ≠ [] →
      ColumnReader.get_row_ranges_by_bloom_filter oi bf_of none rr = none) ∧
    (∀ c, ∃ res,
      ColumnReader.get_row_ranges_by_bloom_filter oi bf_of (some c) rr = some res) ∧
    (FileColumnIterator.get_row_ranges_by_bloom_filter has_bloom_filter_index oi bf_of none rr =
      some rr) ∧
    (∀ c, c.can_do_bloom_filter = false →
      FileColumnIterator.get_row_ranges_by_bloom_filter has_bloom_filter_index oi bf_of
        (some c) rr = some rr) ∧
    (∀ c, has_bloom_filter_index = false →
      FileColumnIterator.get_row_ranges_by_bloom_filter has_bloom_filter_index oi bf_of
        (some c) rr = some rr) := by
  refine ⟨?_, ?_, ?_, ?_, ?_⟩
  · intro hne
    simp only [ColumnReader.get_row_ranges_by_bloom_filter]
    rw [if_neg (by simpa [List.isEmpty_iff] using hne)]
  · intro c
    exact ⟨_, rfl⟩
  · rfl
  · intro c hc
    rw [FileColumnIterator.get_row_ranges_by_bloom_filter]
    simp [hc]
  · intro c hbf
    rw [FileColumnIterator.get_row_ranges_by_bloom_filter]
    simp [hbf]

/-- Witness for C10: a one-page index covered by the input range, null
condition. -/
theorem get_row_ranges_by_bloom_filter_null_cond_witness :
    ColumnReader.get_row_ranges_by_bloom_filter ⟨[(0, 2)]⟩ (fun _ => 0) none ⟨[(0, 2)]⟩ =
      none :=
  (get_row_ranges_by_bloom_filter_null_cond ⟨[(0, 2)]⟩ (fun _ => 0) ⟨[(0, 2)]⟩ false).1
    (by decide)

/-- Witness for C3: on a one-page column whose zone map is `[min,max]` with
data, a condition refuted by the delete condition,
the amended characterization evaluates as stated. -/
theorem get_filtered_pages_accept_iff_witness :
    0 ∉ get_filtered_pages [⟨"a", "b", true, false, false⟩] none
      (some ⟨fun _ => true, fun _ => DelEvalResult.del_satisfied, fun _ => true, true⟩) :=
  by
  intro hmem
  have h := (get_filtered_pages_accept_iff [⟨"a", "b", true, false, false⟩] none
    (some ⟨fun _ => true, fun _ => DelEvalResult.del_satisfied, fun _ => true, true⟩) 0).1.mp hmem
  obtain ⟨zm, hq, h⟩ := h
  simp only [List.getElem?_cons_zero, Option.some.injEq] at hq
  subst hq
  rcases h with h | ⟨_, _, h3⟩
  · simp at h
  · exact h3 _ rfl rfl

theorem getLast?_cons_eq {α : Type} (a : α) (l : List α) :
    (a :: l).getLast? = (l.getLast?).elim (some a) some := by
  cases l with
  | nil => rfl
  | cons x xs =>
    have hne : (x :: xs) ≠ [] := by simp
    have hsome : ((x :: xs).getLast?).isSome := by
      rw [List.getLast?_isSome]
      exact hne
    obtain ⟨b, hb⟩ := Option.isSome_iff_exists.mp hsome
    rw [List.getLast?_cons_cons, hb]
    rfl

theorem last_index_of_type_cons_eq (e : ColumnIndexMetaPB) (rest : List ColumnIndexMetaPB)
    (t : ColumnIndexTypePB) (h : e.type = t) :
    last_index_of_type (e :: rest) t =
      (last_index_of_type rest t).elim (some e.payload) some := by
  rw [last_index_of_type, last_index_of_type, List.filter_cons, if_pos (by simp [h]),
    getLast?_cons_eq]
  cases hl : (rest.filter fun f => decide (f.type = t)).getLast? with
  | none => rfl
  | some g => rfl

theorem last_index_of_type_cons_ne (e : ColumnIndexMetaPB) (rest : List ColumnIndexMetaPB)
    (t : ColumnIndexTypePB) (h : ¬e.type = t) :
    last_index_of_type (e :: rest) t = last_index_of_type rest t := by
  rw [last_index_of_type, last_index_of_type, List.filter_cons, if_neg (by simp [h])]

theorem init_scan_error_of_unknown :
    ∀ (indexes : List ColumnIndexMetaPB) (st : IndexPointers),
      (∃ e ∈ indexes, e.type.is_unknown = true) →
      ∃ msg, ColumnReader.init_scan indexes st = .error (Status.Corruption msg) := by
  intro indexes
  induction indexes with
  | nil =>
    rintro st ⟨e, he, _⟩
    exact absurd he (List.not_mem_nil e)
  | cons e rest ih =>
    rintro st ⟨f, hf, hfu⟩
    rcases List.mem_cons.mp hf with rfl | hf
    · cases htype : f.type with
      | UNKNOWN_INDEX v =>
        exact ⟨_, by rw [ColumnReader.init_scan, htype]⟩
      | ORDINAL_INDEX => rw [htype] at hfu; exact absurd hfu (by simp [ColumnIndexTypePB.is_unknown])
      | ZONE_MAP_INDEX => rw [htype] at hfu; exact absurd hfu (by simp [ColumnIndexTypePB.is_unknown])
      | BITMAP_INDEX => rw [htype] at hfu; exact absurd hfu (by simp [ColumnIndexTypePB.is_unknown])
      | BLOOM_FILTER_INDEX => rw [htype] at hfu; exact absurd hfu (by simp [ColumnIndexTypePB.is_unknown])
    · cases htype : e.type with
      | UNKNOWN_INDEX v =>
        exact ⟨_, by rw [ColumnReader.init_scan, htype]⟩
      | ORDINAL_INDEX => rw [ColumnReader.init_scan, htype]; exact ih _ ⟨f, hf, hfu⟩
      | ZONE_MAP_INDEX => rw [ColumnReader.init_scan, htype]; exact ih _ ⟨f, hf, hfu⟩
      | BITMAP_INDEX => rw [ColumnReader.init_scan, htype]; exact ih _ ⟨f, hf, hfu⟩
      | BLOOM_FILTER_INDEX => rw [ColumnReader.init_scan, htype]; exact ih _ ⟨f, hf, hfu⟩

theorem init_scan_ok_fields :
    ∀ (indexes : List ColumnIndexMetaPB) (st st' : IndexPointers),
      ColumnReader.init_scan indexes st = .ok st' →
      (∀ e ∈ indexes, e.type.is_unknown = false) ∧
      st'._ordinal_index_meta =
        ((last_index_of_type indexes .ORDINAL_INDEX).elim st._ordinal_index_meta some) ∧
      st'._zone_map_index_meta =
        ((last_index_of_type indexes .ZONE_MAP_INDEX).elim st._zone_map_index_meta some) ∧
      st'._bitmap_index_meta =
        ((last_index_of_type indexes .BITMAP_INDEX).elim st._bitmap_index_meta some) ∧
      st'._bf_index_meta =
        ((last_index_of_type indexes .BLOOM_FILTER_INDEX).elim st._bf_index_meta some) := by
  intro indexes
  induction indexes with
  | nil =>
    intro st st' hok
    rw [ColumnReader.init_scan] at hok
    injection hok with hok
    subst hok
    refine ⟨by simp, rfl, rfl, rfl, rfl⟩
  | cons e rest ih =>
    intro st st' hok
    cases htype : e.type with
    | UNKNOWN_INDEX v =>
      rw [ColumnReader.init_scan, htype] at hok
      exact absurd hok (by simp)
    | ORDINAL_INDEX =>
      rw [ColumnReader.init_scan, htype] at hok
      obtain ⟨hnone, h1, h2, h3, h4⟩ := ih _ _ hok
      refine ⟨?_, ?_, ?_, ?_, ?_⟩
      · intro f hf
        rcases List.mem_cons.mp hf with rfl | hf
        · rw [htype]; rfl
        · exact hnone f hf
      · rw [h1, last_index_of_type_cons_eq e rest _ htype]
        cases hl : last_index_of_type rest ColumnIndexTypePB.ORDINAL_INDEX with
        | none => rfl
        | some g => rfl
      · rw [h2, last_index_of_type_cons_ne e rest _ (by rw [htype]; intro hcon; cases hcon)]
      · rw [h3, last_index_of_type_cons_ne e rest _ (by rw [htype]; intro hcon; cases hcon)]
      · rw [h4, last_index_of_type_cons_ne e rest _ (by rw [htype]; intro hcon; cases hcon)]
    | ZONE_MAP_INDEX =>
      rw [ColumnReader.init_scan, htype] at hok
      obtain ⟨hnone, h1, h2, h3, h4⟩ := ih _ _ hok
      refine ⟨?_, ?_, ?_, ?_, ?_⟩
      · intro f hf
        rcases List.mem_cons.mp hf with rfl | hf
        · rw [htype]; rfl
        · exact hnone f hf
      · rw [h1, last_index_of_type_cons_ne e rest _ (by rw [htype]; intro hcon; cases hcon)]
      · rw [h2, last_index_of_type_cons_eq e rest _ htype]
        cases hl : last_index_of_type rest ColumnIndexTypePB.ZONE_MAP_INDEX with
        | none => rfl
        | some g => rfl
      · rw [h3, last_index_of_type_cons_ne e rest _ (by rw [htype]; intro hcon; cases hcon)]
      · rw [h4, last_index_of_type_cons_ne e rest _ (by rw [htype]; intro hcon; cases hcon)]
    | BITMAP_INDEX =>
      rw [ColumnReader.init_scan, htype] at hok
      obtain ⟨hnone, h1, h2, h3, h4⟩ := ih _ _ hok
      refine ⟨?_, ?_, ?_, ?_, ?_⟩
      · intro f hf
        rcases List.mem_cons.mp hf with rfl | hf
        · rw [htype]; rfl
        · exact hnone f hf
      · rw [h1, last_index_of_type_cons_ne e rest _ (by rw [htype]; intro hcon; cases hcon)]
      · rw [h2, last_index_of_type_cons_ne e rest _ (by rw [htype]; intro hcon; cases hcon)]
      · rw [h3, last_index_of_type_cons_eq e rest _ htype]
        cases hl : last_index_of_type rest ColumnIndexTypePB.BITMAP_INDEX with
        | none => rfl
        | some g => rfl
      · rw [h4, last_index_of_type_cons_ne e rest _ (by rw [htype]; intro hcon; cases hcon)]
    | BLOOM_FILTER_INDEX =>
      rw [ColumnReader.init_scan, htype] at hok
      obtain ⟨hnone, h1, h2, h3, h4⟩ := ih _ _ hok
      refine ⟨?_, ?_, ?_, ?_, ?_⟩
      · intro f hf
        rcases List.mem_cons.mp hf with rfl | hf
        · rw [htype]; rfl
        · exact hnone f hf
      · rw [h1, last_index_of_type_cons_ne e rest _ (by rw [htype]; intro hcon; cases hcon)]
      · rw [h2, last_index_of_type_cons_ne e rest _ (by rw [htype]; intro hcon; cases hcon)]
      · rw [h3, last_index_of_type_cons_ne e rest _ (by rw [htype]; intro hcon; cases hcon)]
      · rw [h4, last_index_of_type_cons_eq e rest _ htype]
        cases hl : last_index_of_type rest ColumnIndexTypePB.BLOOM_FILTER_INDEX with
        | none => rfl
        | some g => rfl

/-- **C7 counterexample.** Two descriptors of the same index type are not a
`Corruption` error: `init` succeeds and the second descriptor's metadata
overwrites the first. -/
theorem column_reader_init_duplicate_ok :
    ColumnReader.init [⟨.ORDINAL_INDEX, 1⟩, ⟨.ORDINAL_INDEX, 2⟩] 5 =
      .ok ⟨some 2, none, none, none⟩ ∧
    (⟨.ORDINAL_INDEX, 1⟩ : ColumnIndexMetaPB).type =
      (⟨.ORDINAL_INDEX, 2⟩ : ColumnIndexMetaPB).type :=
  ⟨rfl, rfl⟩

/-- **C7 (amended).** `ColumnReader::init()` returns a `Corruption` error
whenever the metadata's index list contains a descriptor of unknown type.
Duplicate descriptors of the same type are **not** detected: on success
every descriptor has a recognised type and each recognised type's recorded
metadata pointer is the **last** descriptor of that type (earlier ones are
overwritten); a missing ordinal index on a non-empty column is also
`Corruption`. -/
theorem column_reader_init_spec (indexes : List ColumnIndexMetaPB) (num_rows : Nat) :
    ((∃ e ∈ indexes, e.type.is_unknown = true) →
      ∃ msg, ColumnReader.init indexes num_rows = .error (Status.Corruption msg)) ∧
    (∀ st, ColumnReader.init indexes num_rows = .ok st →
      (∀ e ∈ indexes, e.type.is_unknown = false) ∧
      st._ordinal_index_meta = last_index_of_type indexes .ORDINAL_INDEX ∧
      st._zone_map_index_meta = last_index_of_type indexes .ZONE_MAP_INDEX ∧
      st._bitmap_index_meta = last_index_of_type indexes .BITMAP_INDEX ∧
      st._bf_index_meta = last_index_of_type indexes .BLOOM_FILTER_INDEX ∧
      (st._ordinal_index_meta ≠ none ∨ num_rows = 0)) := by
  have helim : ∀ (o : Option Nat), o.elim (none : Option Nat) some = o := by
    intro o
    cases o <;> rfl
  constructor
  · intro hex
    obtain ⟨msg, hmsg⟩ := init_scan_error_of_unknown indexes ⟨none, none, none, none⟩ hex
    exact ⟨msg, by rw [ColumnReader.init, hmsg]⟩
  · intro st hok
    rw [ColumnReader.init] at hok
    cases hscan : ColumnReader.init_scan indexes ⟨none, none, none, none⟩ with
    | error e =>
      rw [hscan] at hok
      simp at hok
    | ok st0 =>
      rw [hscan] at hok
      by_cases hcond : (st0._ordinal_index_meta.isNone && !(num_rows == 0)) = true
      · simp [hcond] at hok
      · have hcond' : (st0._ordinal_index_meta.isNone && !(num_rows == 0)) = false := by
          cases h : st0._ordinal_index_meta.isNone && !(num_rows == 0) <;> simp_all
        simp only [hcond', Bool.false_eq_true, if_false, Except.ok.injEq] at hok
        subst hok
        obtain ⟨hnone, h1, h2, h3, h4⟩ := init_scan_ok_fields indexes _ _ hscan
        refine ⟨hnone, ?_, ?_, ?_, ?_, ?_⟩
        · rw [h1, helim]
        · rw [h2, helim]
        · rw [h3, helim]
        · rw [h4, helim]
        · by_cases hz : num_rows = 0
          · exact Or.inr hz
          · refine Or.inl fun hcon => ?_
            apply hcond
            rw [hcon]
            simp [hz]

/-- Witness for C7: a single unknown index descriptor is a Corruption
error. -/
theorem column_reader_init_spec_witness :
    ∃ msg, ColumnReader.init [⟨.UNKNOWN_INDEX 9, 0⟩] 5 = .error (Status.Corruption msg) :=
  (column_reader_init_spec [⟨.UNKNOWN_INDEX 9, 0⟩] 5).1 ⟨⟨.UNKNOWN_INDEX 9, 0⟩, by simp, rfl⟩

/-! ### Counting and slicing lemmas -/

theorem countSomes_append (a b : List (Option Int)) :
    countSomes (a ++ b) = countSomes a + countSomes b := by
  simp [countSomes, List.filterMap_append]

theorem countSomes_take_add (l : List (Option Int)) (a b : Nat) :
    countSomes (l.take (a + b)) = countSomes (l.take a) + countSomes ((l.drop a).take b) := by
  rw [List.take_add, countSomes_append]

theorem filterMap_drop_countSomes (l : List (Option Int)) (n : Nat) :
    (l.filterMap id).drop (countSomes (l.take n)) = (l.drop n).filterMap id := by
  have h := congrArg (List.filterMap id) (List.take_append_drop n l)
  rw [List.filterMap_append] at h
  rw [countSomes, ← h]
  exact List.drop_left _ _

theorem filterMap_all_some (s : List (Option Int)) (h : ∀ r ∈ s, r.isSome = true) :
    (s.filterMap id).map some = s ∧ (s.filterMap id).length = s.length := by
  induction s with
  | nil => simp
  | cons r rest ih =>
    have hr : r.isSome = true := h r (List.mem_cons_self r rest)
    obtain ⟨v, rfl⟩ := Option.isSome_iff_exists.mp hr
    have ihr := ih fun x hx => h x (List.mem_cons_of_mem _ hx)
    simp only [List.filterMap_cons, id]
    constructor
    · simp [ihr.1]
    · simp [ihr.2]

theorem replicate_all_none (s : List (Option Int)) (h : ∀ r ∈ s, r.isNone = true) :
    s = List.replicate s.length none ∧ s.filterMap id = [] := by
  induction s with
  | nil => simp
  | cons r rest ih =>
    have hr : r.isNone = true := h r (List.mem_cons_self r rest)
    have : r = none := Option.isNone_iff_eq_none.mp hr
    subst this
    have ihr := ih fun x hx => h x (List.mem_cons_of_mem _ hx)
    constructor
    · rw [List.length_cons, List.replicate_succ]
      exact congrArg (none :: ·) ihr.1
    · simp [ihr.2]

theorem count_isNone_add_countSomes :
    ∀ (s : List (Option Int)), (s.map Option.isNone).count true + countSomes s = s.length
  | [] => by simp [countSomes]
  | none :: rest => by
    have ih := count_isNone_add_countSomes rest
    have h1 : ((none :: rest : List (Option Int)).map Option.isNone).count true =
        (rest.map Option.isNone).count true + 1 := by
      simp [List.count_cons]
    have h2 : countSomes (none :: rest) = countSomes rest := by simp [countSomes]
    rw [h1, h2, List.length_cons]
    omega
  | some v :: rest => by
    have ih := count_isNone_add_countSomes rest
    have h1 : ((some v :: rest : List (Option Int)).map Option.isNone).count true =
        (rest.map Option.isNone).count true := by
      simp [List.count_cons]
    have h2 : countSomes (some v :: rest) = countSomes rest + 1 := by simp [countSomes]
    rw [h1, h2, List.length_cons]
    omega

theorem takeWhile_length_le (p : Bool → Bool) :
    ∀ (s : List Bool), (s.takeWhile p).length ≤ s.length := by
  intro s
  induction s with
  | nil => simp
  | cons b bs ih =>
    rw [List.takeWhile_cons]
    by_cases hb : p b = true
    · rw [if_pos hb]
      simpa using ih
    · rw [if_neg hb]
      simp

theorem takeWhile_take_all (p : Bool → Bool) :
    ∀ (s : List Bool) (r : Nat), r ≤ (s.takeWhile p).length → ∀ x ∈ s.take r, p x = true := by
  intro s
  induction s with
  | nil => simp
  | cons b bs ih =>
    intro r hr x hx
    cases r with
    | zero => simp at hx
    | succ r =>
      by_cases hb : p b = true
      · rw [List.takeWhile_cons, if_pos hb] at hr
        rcases List.mem_cons.mp (by simpa using hx) with rfl | hx'
        · exact hb
        · exact ih r (by simpa using hr) x hx'
      · rw [List.takeWhile_cons, if_neg hb] at hr
        simp at hr

/-! ### Column ordinal arithmetic -/

theorem Column.first_ordinal_zero (col : Column) : col.first_ordinal 0 = 0 := by
  simp [Column.first_ordinal]

theorem Column.first_ordinal_add (col : Column) (i d : Nat) :
    col.first_ordinal (i + d) =
      col.first_ordinal i + (((col.pages.drop i).take d).map fun p => p.rows.length).sum := by
  rw [Column.first_ordinal, Column.first_ordinal, List.take_add, List.map_append,
    List.sum_append]

theorem Column.first_ordinal_mono (col : Column) (i j : Nat) (h : i ≤ j) :
    col.first_ordinal i ≤ col.first_ordinal j := by
  have : j = i + (j - i) := by omega
  rw [this, Column.first_ordinal_add]
  omega

theorem Column.first_ordinal_succ (col : Column) (i : Nat) (h : i < col.pages.length) :
    col.first_ordinal (i + 1) =
      col.first_ordinal i + (col.pages.getD i ⟨[], false⟩).rows.length := by
  rw [Column.first_ordinal_add]
  have hdrop : col.pages.drop i = col.pages.getD i ⟨[], false⟩ :: col.pages.drop (i + 1) := by
    rw [List.getD_eq_getElem col.pages _ h]
    exact List.drop_eq_getElem_cons h
  rw [hdrop]
  simp

theorem Column.first_ordinal_of_le (col : Column) (m : Nat) (h : col.pages.length ≤ m) :
    col.first_ordinal m = col.num_rows := by
  rw [Column.first_ordinal, Column.num_rows, Column.first_ordinal,
    List.take_of_length_le h, List.take_of_length_le (Nat.le_refl _)]

theorem Column.exists_page (col : Column) :
    ∀ (n k : Nat), k < col.first_ordinal n →
      ∃ i, i < n ∧ col.first_ordinal i ≤ k ∧ k < col.first_ordinal (i + 1) := by
  intro n
  induction n with
  | zero =>
    intro k hk
    rw [Column.first_ordinal_zero] at hk
    omega
  | succ n ih =>
    intro k hk
    by_cases hkn : k < col.first_ordinal n
    · obtain ⟨i, hi, h1, h2⟩ := ih k hkn
      exact ⟨i, by omega, h1, h2⟩
    · exact ⟨n, by omega, by omega, hk⟩

theorem Column.page_unique (col : Column) (k i j : Nat)
    (hi : col.first_ordinal i ≤ k) (hi2 : k < col.first_ordinal (i + 1))
    (hj : col.first_ordinal j ≤ k) (hj2 : k < col.first_ordinal (j + 1)) : i = j := by
  rcases Nat.lt_trichotomy i j with h | h | h
  · have := col.first_ordinal_mono (i + 1) j (by omega)
    omega
  · exact h
  · have := col.first_ordinal_mono (j + 1) i (by omega)
    omega

theorem Column.to_rows_length (col : Column) : col.to_rows.length = col.num_rows := by
  rw [Column.to_rows, Column.num_rows, Column.first_ordinal, List.take_of_length_le (Nat.le_refl _)]
  rw [List.length_flatten, List.map_map]
  rfl

theorem Column.to_rows_drop (col : Column) (idx : Nat) :
    col.to_rows.drop (col.first_ordinal idx) = ((col.pages.drop idx).map (·.rows)).flatten := by
  conv =>
    lhs
    rw [Column.to_rows,
      show col.pages = col.pages.take idx ++ col.pages.drop idx from
        (List.take_append_drop idx col.pages).symm]
  rw [List.map_append, List.flatten_append]
  have hlen : (((col.pages.take idx).map (·.rows)).flatten).length = col.first_ordinal idx := by
    rw [List.length_flatten, List.map_map, Column.first_ordinal]
    rfl
  rw [← hlen]
  exact List.drop_left _ _

theorem Column.slice_in_page (col : Column) (idx off c : Nat) (hidx : idx < col.pages.length)
    (hc : off + c ≤ (col.pages.getD idx ⟨[], false⟩).rows.length) :
    (col.to_rows.drop (col.first_ordinal idx + off)).take c =
      (((col.pages.getD idx ⟨[], false⟩).rows.drop off).take c) := by
  rw [← List.drop_drop, Column.to_rows_drop]
  have hdrop : col.pages.drop idx = col.pages.getD idx ⟨[], false⟩ :: col.pages.drop (idx + 1) := by
    rw [List.getD_eq_getElem col.pages _ hidx]
    exact List.drop_eq_getElem_cons hidx
  rw [hdrop, List.map_cons, List.flatten_cons]
  set rows_idx := (col.pages.getD idx ⟨[], false⟩).rows with hrows
  set rest := ((col.pages.drop (idx + 1)).map (·.rows)).flatten with hrest
  have hsplit : (rows_idx ++ rest).drop off = rows_idx.drop off ++ rest := by
    rw [List.drop_append_of_le_length (by omega)]
  rw [hsplit]
  rw [List.take_append_of_le_length]
  rw [List.length_drop]
  omega

/-! ### Shapes of `_seek_to_pos_in_page` and the no-progress invariants -/

theorem seek_to_pos_fast (p : ParsedPage) (t : Nat) (h : p.offset_in_page = t) :
    seek_to_pos_in_page p t = p := by
  simp [seek_to_pos_in_page, h]

theorem seek_to_pos_no_null (p : ParsedPage) (t : Nat) (h : ¬p.offset_in_page = t)
    (hn : p.has_null = false) :
    seek_to_pos_in_page p t =
      { p with
        data_pos := t
        offset_in_page := t } := by
  simp [seek_to_pos_in_page, h, hn, ParsedPage.data_seek]

theorem seek_to_pos_forward (p : ParsedPage) (t : Nat) (h : ¬p.offset_in_page = t)
    (hn : p.has_null = true) (hgt : p.offset_in_page < t) :
    seek_to_pos_in_page p t =
      { p with
        null_pos := p.null_pos + (t - p.offset_in_page)
        data_pos := p.data_pos + (t - p.offset_in_page) -
          ((p.null_bitmap.drop p.null_pos).take (t - p.offset_in_page)).count true
        offset_in_page := t } := by
  simp [seek_to_pos_in_page, h, hn, hgt, ParsedPage.data_seek, ParsedPage.null_skip]

theorem seek_to_pos_backward (p : ParsedPage) (t : Nat) (h : ¬p.offset_in_page = t)
    (hn : p.has_null = true) (hle : ¬p.offset_in_page < t) :
    seek_to_pos_in_page p t =
      { p with
        null_pos := t
        data_pos := t - (p.null_bitmap.take t).count true
        offset_in_page := t } := by
  simp [seek_to_pos_in_page, h, hn, hle, ParsedPage.data_seek, ParsedPage.null_skip,
    ParsedPage.null_reset, ParsedPage.null_bitmap]

theorem seek_to_pos_null_inv (p : ParsedPage) (hn : p.has_null = true)
    (hinv : p.null_inv) (t : Nat) : (seek_to_pos_in_page p t).null_inv := by
  by_cases heq : p.offset_in_page = t
  · rw [seek_to_pos_fast p t heq]
    exact hinv
  · obtain ⟨hnp, hdp⟩ := hinv
    by_cases hgt : p.offset_in_page < t
    · rw [seek_to_pos_forward p t heq hn hgt]
      have hdecomp : (p.null_bitmap.take (p.null_pos + (t - p.offset_in_page))).count true =
          (p.null_bitmap.take p.null_pos).count true +
            ((p.null_bitmap.drop p.null_pos).take (t - p.offset_in_page)).count true := by
        rw [List.take_add, List.count_append]
      have hcle : ((p.null_bitmap.drop p.null_pos).take (t - p.offset_in_page)).count true ≤
          t - p.offset_in_page := by
        calc ((p.null_bitmap.drop p.null_pos).take (t - p.offset_in_page)).count true
            ≤ ((p.null_bitmap.drop p.null_pos).take (t - p.offset_in_page)).length :=
              List.count_le_length _ _
          _ ≤ t - p.offset_in_page := List.length_take_le _ _
      constructor
      · simp only
        omega
      · simp only [ParsedPage.null_bitmap] at hdp hdecomp hcle ⊢
        omega
    · rw [seek_to_pos_backward p t heq hn hgt]
      have hcle : (p.null_bitmap.take t).count true ≤ t := by
        calc (p.null_bitmap.take t).count true
            ≤ (p.null_bitmap.take t).length := List.count_le_length _ _
          _ ≤ t := List.length_take_le _ _
      refine ⟨rfl, ?_⟩
      simp only [ParsedPage.null_bitmap] at hcle ⊢
      omega

theorem bitmap_seg_map (p : ParsedPage) (run : Nat) :
    ((p.rows.drop p.null_pos).take run).map Option.isNone =
      (p.null_bitmap.drop p.null_pos).take run := by
  rw [List.map_take, List.map_drop]
  rfl

/-- Full characterization of the null-run loop on a consistently positioned
page: reading `c` rows appends exactly the next `c` rows of the page and
moves all three cursors forward in lock step. -/
theorem null_runs_spec :
    ∀ (fuel : Nat) (p : ParsedPage) (dst : List (Option Int)) (ord c : Nat),
      p.has_null = true → c ≤ fuel → p.null_pos = p.offset_in_page →
      p.offset_in_page + c ≤ p.num_rows →
      p.data_pos = countSomes (p.rows.take p.offset_in_page) →
      next_batch_null_runs fuel p dst ord c =
        ({ p with
            offset_in_page := p.offset_in_page + c
            null_pos := p.offset_in_page + c
            data_pos := countSomes (p.rows.take (p.offset_in_page + c)) },
          dst ++ (p.rows.drop p.offset_in_page).take c, ord + c) := by
  intro fuel
  induction fuel with
  | zero =>
    intro p dst ord c hn hcf hnp hbound hdp
    have hc0 : c = 0 := Nat.le_zero.mp hcf
    subst hc0
    cases p with
    | mk fo rows hnl off dp np =>
      simp only at hnp hdp
      subst hnp
      subst hdp
      simp [next_batch_null_runs]
  | succ fuel ih =>
    intro p dst ord c hn hcf hnp hbound hdp
    cases c with
    | zero =>
      cases p with
      | mk fo rows hnl off dp np =>
        simp only at hnp hdp
        subst hnp
        subst hdp
        simp [next_batch_null_runs]
    | succ c =>
      have hrows_len : p.null_bitmap.length = p.rows.length := by
        simp [ParsedPage.null_bitmap]
      have hoff_lt : p.null_pos < p.null_bitmap.length := by
        simp only [ParsedPage.num_rows] at hbound
        omega
      obtain ⟨b, bs, hbits⟩ : ∃ b bs, p.null_bitmap.drop p.null_pos = b :: bs := by
        cases hd : p.null_bitmap.drop p.null_pos with
        | nil =>
          have hl := congrArg List.length hd
          rw [List.length_drop] at hl
          simp at hl
          omega
        | cons b bs => exact ⟨b, bs, rfl⟩
      have hbits_len : (b :: bs).length = p.null_bitmap.length - p.null_pos := by
        have h1 := congrArg List.length hbits
        rw [List.length_drop] at h1
        omega
      set run := Nat.min (c + 1) (((b :: bs).takeWhile fun x => x == b).length) with hrun_def
      have hget : p.null_get_next_run (c + 1) =
          (b, run, { p with null_pos := p.null_pos + run }) := by
        simp only [ParsedPage.null_get_next_run, hbits]
      have hrun_pos : 1 ≤ run := by
        rw [hrun_def]
        have h1 : 1 ≤ (((b :: bs).takeWhile fun x => x == b).length) := by
          rw [List.takeWhile_cons, if_pos (by simp)]
          simp
        exact Nat.le_min.mpr ⟨by omega, h1⟩
      have hrun_ne : ¬run = 0 := by omega
      have hrun_le_c : run ≤ c + 1 := Nat.min_le_left _ _
      have hrun_le_tw : run ≤ (((b :: bs).takeWhile fun x => x == b).length) :=
        Nat.min_le_right _ _
      have hrun_le_bits : run ≤ (b :: bs).length := by
        have := takeWhile_length_le (fun x => x == b) (b :: bs)
        omega
      have hrun_le_rem : run ≤ p.rows.length - p.offset_in_page := by
        have h2 : run ≤ (b :: bs).length := hrun_le_bits
        have h3 : p.null_pos = p.offset_in_page := hnp
        omega
      have hall : ∀ x ∈ (p.null_bitmap.drop p.null_pos).take run, x = b := by
        intro x hx
        rw [hbits] at hx
        have := takeWhile_take_all (fun y => y == b) (b :: bs) run hrun_le_tw x hx
        simpa using this
      have hseg_map : ((p.rows.drop p.null_pos).take run).map Option.isNone =
          (p.null_bitmap.drop p.null_pos).take run := bitmap_seg_map p run
      have hseg_len : ((p.rows.drop p.null_pos).take run).length = run := by
        rw [List.length_take, List.length_drop]
        rw [← hnp] at hrun_le_rem
        omega
      have hoff_le_len : p.offset_in_page ≤ p.rows.length := by
        simp only [ParsedPage.num_rows] at hbound
        omega
      -- arithmetic and list recomposition shared by both run kinds
      have harith : p.offset_in_page + run + (c + 1 - run) = p.offset_in_page + (c + 1) := by
        omega
      have hord : ord + run + (c + 1 - run) = ord + (c + 1) := by omega
      have hdropdrop : (p.rows.drop p.offset_in_page).drop run =
          p.rows.drop (p.offset_in_page + run) := by
        simp [List.drop_drop, Nat.add_comm]
      have hsplit_rows : (p.rows.drop p.offset_in_page).take (c + 1) =
          (p.rows.drop p.offset_in_page).take run ++
            (p.rows.drop (p.offset_in_page + run)).take (c + 1 - run) := by
        rw [show c + 1 = run + (c + 1 - run) from by omega, List.take_add, hdropdrop]
        congr 2
        omega
      cases hb : b with
      | true =>
        -- a run of nulls: emit run null slots, the data decoder is untouched
        have hseg_none : ∀ r ∈ (p.rows.drop p.null_pos).take run, r.isNone = true := by
          intro r hr
          have hmem : r.isNone ∈ ((p.rows.drop p.null_pos).take run).map Option.isNone :=
            List.mem_map_of_mem _ hr
          rw [hseg_map] at hmem
          rw [hall _ hmem, hb]
        have hrepl := replicate_all_none _ hseg_none
        have hseg_repl : (p.rows.drop p.null_pos).take run = List.replicate run none := by
          rw [hrepl.1, hseg_len]
        have hcs_seg : countSomes ((p.rows.drop p.null_pos).take run) = 0 := by
          simp [countSomes, hrepl.2]
        have hstep : next_batch_null_runs (fuel + 1) p dst ord (c + 1) =
            next_batch_null_runs fuel
              { p with
                  offset_in_page := p.offset_in_page + run
                  null_pos := p.null_pos + run }
              (dst ++ List.replicate run (none : Option Int)) (ord + run) (c + 1 - run) := by
          rw [next_batch_null_runs]
          simp only [hget, hb, eq_self_iff_true, if_true, if_neg hrun_ne]
        have hnew1 : ({ p with
            offset_in_page := p.offset_in_page + run
            null_pos := p.null_pos + run } : ParsedPage).has_null = true := hn
        have hnew2 : c + 1 - run ≤ fuel := by omega
        have hnew3 : ({ p with
            offset_in_page := p.offset_in_page + run
            null_pos := p.null_pos + run } : ParsedPage).null_pos =
            ({ p with
              offset_in_page := p.offset_in_page + run
              null_pos := p.null_pos + run } : ParsedPage).offset_in_page := by
          simp only
          omega
        have hnew4 : ({ p with
            offset_in_page := p.offset_in_page + run
            null_pos := p.null_pos + run } : ParsedPage).offset_in_page + (c + 1 - run) ≤
            ({ p with
              offset_in_page := p.offset_in_page + run
              null_pos := p.null_pos + run } : ParsedPage).num_rows := by
          simp only [ParsedPage.num_rows] at hbound ⊢
          omega
        have hnew5 : ({ p with
            offset_in_page := p.offset_in_page + run
            null_pos := p.null_pos + run } : ParsedPage).data_pos =
            countSomes (({ p with
              offset_in_page := p.offset_in_page + run
              null_pos := p.null_pos + run } : ParsedPage).rows.take
                (({ p with
                  offset_in_page := p.offset_in_page + run
                  null_pos := p.null_pos + run } : ParsedPage).offset_in_page)) := by
          have hcs_seg2 : countSomes ((p.rows.drop p.offset_in_page).take run) = 0 := by
            rw [← hnp]
            exact hcs_seg
          simp only
          rw [countSomes_take_add, hcs_seg2, Nat.add_zero, ← hdp]
        rw [hstep, ih _ _ _ _ hnew1 hnew2 hnew3 hnew4 hnew5]
        rw [hnp] at hseg_repl
        simp only [harith]
        rw [hsplit_rows, hseg_repl, hord, List.append_assoc]
      | false =>
        -- a run of values: the data decoder decodes exactly run values
        have hseg_some : ∀ r ∈ (p.rows.drop p.null_pos).take run, r.isSome = true := by
          intro r hr
          have hmem : r.isNone ∈ ((p.rows.drop p.null_pos).take run).map Option.isNone :=
            List.mem_map_of_mem _ hr
          rw [hseg_map] at hmem
          have hnone : r.isNone = false := by rw [hall _ hmem, hb]
          cases r with
          | none => simp at hnone
          | some v => rfl
        have hfm := filterMap_all_some _ hseg_some
        have hdrop_dv : p.data_values.drop p.data_pos = (p.rows.drop p.null_pos).filterMap id := by
          rw [ParsedPage.data_values, hdp, ← hnp]
          exact filterMap_drop_countSomes _ _
        have hsplit_fm : (p.rows.drop p.null_pos).filterMap id =
            ((p.rows.drop p.null_pos).take run).filterMap id ++
              ((p.rows.drop p.null_pos).drop run).filterMap id := by
          have h := congrArg (List.filterMap id) (List.take_append_drop run (p.rows.drop p.null_pos))
          rw [List.filterMap_append] at h
          exact h.symm
        have htake_fm : ((p.rows.drop p.null_pos).filterMap id).take run =
            ((p.rows.drop p.null_pos).take run).filterMap id := by
          rw [hsplit_fm, List.take_append_of_le_length (by rw [hfm.2, hseg_len]),
            List.take_of_length_le (by rw [hfm.2, hseg_len])]
        have hvals : (p.data_values.drop p.data_pos).take run =
            ((p.rows.drop p.null_pos).take run).filterMap id := by
          rw [hdrop_dv, htake_fm]
        have hvals_len : ((p.data_values.drop p.data_pos).take run).length = run := by
          rw [hvals, hfm.2, hseg_len]
        have hvals_map : ((p.data_values.drop p.data_pos).take run).map some =
            (p.rows.drop p.null_pos).take run := by
          rw [hvals, hfm.1]
        have hcs_seg : countSomes ((p.rows.drop p.null_pos).take run) = run := by
          rw [countSomes, hfm.2, hseg_len]
        have hstep : next_batch_null_runs (fuel + 1) p dst ord (c + 1) =
            next_batch_null_runs fuel
              { p with
                  offset_in_page := p.offset_in_page + run
                  null_pos := p.null_pos + run
                  data_pos := p.data_pos + run }
              (dst ++ (p.rows.drop p.null_pos).take run) (ord + run) (c + 1 - run) := by
          have hvals_len2 : (((p.rows.filterMap id).drop p.data_pos).take run).length = run :=
            hvals_len
          have hvals_map2 : (((p.rows.filterMap id).drop p.data_pos).take run).map some =
              (p.rows.drop p.null_pos).take run := hvals_map
          rw [next_batch_null_runs]
          simp only [hget, hb, if_neg hrun_ne, Bool.false_eq_true, if_false,
            ParsedPage.data_next_batch, ParsedPage.data_values]
          rw [hvals_len2, hvals_map2]
        have hnew1 : ({ p with
            offset_in_page := p.offset_in_page + run
            null_pos := p.null_pos + run
            data_pos := p.data_pos + run } : ParsedPage).has_null = true := hn
        have hnew2 : c + 1 - run ≤ fuel := by omega
        have hnew3 : ({ p with
            offset_in_page := p.offset_in_page + run
            null_pos := p.null_pos + run
            data_pos := p.data_pos + run } : ParsedPage).null_pos =
            ({ p with
              offset_in_page := p.offset_in_page + run
              null_pos := p.null_pos + run
              data_pos := p.data_pos + run } : ParsedPage).offset_in_page := by
          simp only
          omega
        have hnew4 : ({ p with
            offset_in_page := p.offset_in_page + run
            null_pos := p.null_pos + run
            data_pos := p.data_pos + run } : ParsedPage).offset_in_page + (c + 1 - run) ≤
            ({ p with
              offset_in_page := p.offset_in_page + run
              null_pos := p.null_pos + run
              data_pos := p.data_pos + run } : ParsedPage).num_rows := by
          simp only [ParsedPage.num_rows] at hbound ⊢
          omega
        have hnew5 : ({ p with
            offset_in_page := p.offset_in_page + run
            null_pos := p.null_pos + run
            data_pos := p.data_pos + run } : ParsedPage).data_pos =
            countSomes (({ p with
              offset_in_page := p.offset_in_page + run
              null_pos := p.null_pos + run
              data_pos := p.data_pos + run } : ParsedPage).rows.take
                (({ p with
                  offset_in_page := p.offset_in_page + run
                  null_pos := p.null_pos + run
                  data_pos := p.data_pos + run } : ParsedPage).offset_in_page)) := by
          have hcs_seg2 : countSomes ((p.rows.drop p.offset_in_page).take run) = run := by
            rw [← hnp]
            exact hcs_seg
          simp only
          rw [countSomes_take_add, hcs_seg2, ← hdp]
        rw [hstep, ih _ _ _ _ hnew1 hnew2 hnew3 hnew4 hnew5]
        have hseg_off : (p.rows.drop p.offset_in_page).take run =
            (p.rows.drop p.null_pos).take run := by
          rw [hnp]
        simp only [harith]
        rw [hsplit_rows, hseg_off, hord, List.append_assoc]

/-- **C5.** On a page with nulls whose decoders satisfy the positioning
invariant — values consumed by the data decoder plus nulls observed by
the null decoder equal `offset_in_page` — both `_seek_to_pos_in_page`
(in particular its backward path, which rewinds the null decoder to the
bitmap start) and the null-run loop of `next_batch` (reading at most the
page's remaining rows, as `next_batch` always does) preserve the
invariant. -/
theorem null_position_invariant (p : ParsedPage) (hn : p.has_null = true)
    (hinv : p.null_inv) (hoff : p.offset_in_page ≤ p.num_rows)
    (t fuel c : Nat) (dst : List (Option Int)) (ord : Nat)
    (hc : c ≤ p.remaining) (hfuel : c ≤ fuel) :
    (seek_to_pos_in_page p t).null_inv ∧
    (next_batch_null_runs fuel p dst ord c).1.null_inv := by
  refine ⟨seek_to_pos_null_inv p hn hinv t, ?_⟩
  obtain ⟨hnp, hdp⟩ := hinv
  have hrows_len : p.null_bitmap.length = p.rows.length := by
    simp [ParsedPage.null_bitmap]
  have hcount := count_isNone_add_countSomes (p.rows.take p.offset_in_page)
  have hmap : (p.rows.take p.offset_in_page).map Option.isNone =
      p.null_bitmap.take p.offset_in_page := by
    rw [List.map_take]
    rfl
  have hlen_take : (p.rows.take p.offset_in_page).length = p.offset_in_page := by
    rw [List.length_take]
    simp only [ParsedPage.num_rows] at hoff
    omega
  rw [hmap, hlen_take] at hcount
  have hdp' : p.data_pos = countSomes (p.rows.take p.offset_in_page) := by
    rw [hnp] at hdp
    omega
  rw [null_runs_spec fuel p dst ord c hn hfuel hnp
    (by simp only [ParsedPage.remaining] at hc; simp only [ParsedPage.num_rows] at *; omega)
    hdp']
  have hcount2 := count_isNone_add_countSomes (p.rows.take (p.offset_in_page + c))
  have hmap2 : (p.rows.take (p.offset_in_page + c)).map Option.isNone =
      p.null_bitmap.take (p.offset_in_page + c) := by
    rw [List.map_take]
    rfl
  have hlen_take2 : (p.rows.take (p.offset_in_page + c)).length = p.offset_in_page + c := by
    rw [List.length_take]
    simp only [ParsedPage.remaining] at hc
    simp only [ParsedPage.num_rows] at *
    omega
  rw [hmap2, hlen_take2] at hcount2
  refine ⟨rfl, ?_⟩
  show countSomes (p.rows.take (p.offset_in_page + c)) +
      (p.null_bitmap.take (p.offset_in_page + c)).count true = p.offset_in_page + c
  omega

/-- `_seek_to_pos_in_page` on a consistent page cursor: the page content is
untouched, the offset becomes the target, and the decoders land exactly at
the positions belonging to the target offset. -/
theorem seek_to_pos_wf (p : ParsedPage) (t : Nat)
    (hwf_off : p.offset_in_page ≤ p.num_rows)
    (hdp : p.data_pos = countSomes (p.rows.take p.offset_in_page))
    (hnp : p.has_null = true → p.null_pos = p.offset_in_page)
    (hsome : p.has_null = false → ∀ r ∈ p.rows, r.isSome = true)
    (ht : t ≤ p.num_rows) :
    (seek_to_pos_in_page p t).rows = p.rows ∧
    (seek_to_pos_in_page p t).has_null = p.has_null ∧
    (seek_to_pos_in_page p t).first_ordinal = p.first_ordinal ∧
    (seek_to_pos_in_page p t).offset_in_page = t ∧
    (seek_to_pos_in_page p t).data_pos = countSomes (p.rows.take t) ∧
    (p.has_null = true → (seek_to_pos_in_page p t).null_pos = t) := by
  simp only [ParsedPage.num_rows] at hwf_off ht
  by_cases heq : p.offset_in_page = t
  · rw [seek_to_pos_fast p t heq]
    refine ⟨rfl, rfl, rfl, heq, ?_, ?_⟩
    · rw [hdp, heq]
    · intro h
      rw [hnp h, heq]
  · cases hn : p.has_null with
    | false =>
      rw [seek_to_pos_no_null p t heq hn]
      refine ⟨rfl, hn, rfl, rfl, ?_, ?_⟩
      · have hall : ∀ r ∈ p.rows.take t, r.isSome = true := fun r hr =>
          hsome hn r (List.mem_of_mem_take hr)
        have hfm := filterMap_all_some _ hall
        show t = countSomes (p.rows.take t)
        rw [countSomes, hfm.2, List.length_take]
        omega
      · intro h
        exact absurd h (by simp)
    | true =>
      have hnp' := hnp hn
      have hA := count_isNone_add_countSomes (p.rows.take p.offset_in_page)
      have hB := count_isNone_add_countSomes (p.rows.take t)
      have hmapA : (p.rows.take p.offset_in_page).map Option.isNone =
          p.null_bitmap.take p.offset_in_page := by
        rw [List.map_take]
        rfl
      have hmapB : (p.rows.take t).map Option.isNone = p.null_bitmap.take t := by
        rw [List.map_take]
        rfl
      have hlenA : (p.rows.take p.offset_in_page).length = p.offset_in_page := by
        rw [List.length_take]
        omega
      have hlenB : (p.rows.take t).length = t := by
        rw [List.length_take]
        omega
      rw [hmapA, hlenA] at hA
      rw [hmapB, hlenB] at hB
      by_cases hgt : p.offset_in_page < t
      · rw [seek_to_pos_forward p t heq hn hgt]
        have hC : (p.null_bitmap.take t).count true =
            (p.null_bitmap.take p.offset_in_page).count true +
              ((p.null_bitmap.drop p.offset_in_page).take (t - p.offset_in_page)).count true := by
          rw [show t = p.offset_in_page + (t - p.offset_in_page) from by omega,
            List.take_add, List.count_append]
          simp
        have hseg_le : ((p.null_bitmap.drop p.offset_in_page).take (t - p.offset_in_page)).count
            true ≤ t - p.offset_in_page := by
          calc ((p.null_bitmap.drop p.offset_in_page).take (t - p.offset_in_page)).count true
              ≤ ((p.null_bitmap.drop p.offset_in_page).take (t - p.offset_in_page)).length :=
                List.count_le_length _ _
            _ ≤ t - p.offset_in_page := List.length_take_le _ _
        refine ⟨rfl, hn, rfl, rfl, ?_, ?_⟩
        · show p.data_pos + (t - p.offset_in_page) -
              ((p.null_bitmap.drop p.null_pos).take (t - p.offset_in_page)).count true =
            countSomes (p.rows.take t)
          rw [hnp']
          omega
        · intro _
          show p.null_pos + (t - p.offset_in_page) = t
          omega
      · rw [seek_to_pos_backward p t heq hn hgt]
        refine ⟨rfl, hn, rfl, rfl, ?_, fun _ => rfl⟩
        show t - (p.null_bitmap.take t).count true = countSomes (p.rows.take t)
        omega

/-- `seek_at_or_before` on a well-formed column finds exactly the page
containing any in-range ordinal. -/
theorem Column.seek_finds_page (col : Column) (k : Nat) (hk : k < col.num_rows) :
    ∃ idx, col.seek_at_or_before k = some idx ∧ idx < col.pages.length ∧
      col.first_ordinal idx ≤ k ∧ k < col.first_ordinal (idx + 1) := by
  have hk' : k < col.first_ordinal col.pages.length := hk
  obtain ⟨idx, hidx, h1, h2⟩ := col.exists_page col.pages.length k hk'
  refine ⟨idx, ?_, hidx, h1, h2⟩
  rw [Column.seek_at_or_before, seek_at_or_before_go_eq_some]
  refine ⟨hidx, h1, ?_⟩
  intro i hij hin
  have : col.first_ordinal (idx + 1) ≤ col.first_ordinal i :=
    col.first_ordinal_mono (idx + 1) i (by omega)
  omega

theorem read_page_wf (col : Column) (idx : Nat) (h : idx < col.pages.length) :
    PageLoadedAt col idx (col.read_page idx) ∧ WfPageState (col.read_page idx) :=
  ⟨⟨h, rfl, rfl, rfl⟩, Nat.zero_le _, rfl, fun _ => rfl⟩

theorem wf_page_some (col : Column) (hcol : WfColumn col) (idx : Nat)
    (h : idx < col.pages.length) (pg : ParsedPage) (hpl : PageLoadedAt col idx pg) :
    (pg.has_null = false → ∀ r ∈ pg.rows, r.isSome = true) ∧ pg.rows ≠ [] := by
  have hmem : col.pages.getD idx ⟨[], false⟩ ∈ col.pages := by
    rw [List.getD_eq_getElem col.pages _ h]
    exact List.getElem_mem h
  obtain ⟨hne, hsome⟩ := hcol _ hmem
  obtain ⟨_, hrows, hnull, _⟩ := hpl
  constructor
  · intro hn r hr
    rw [hrows] at hr
    exact hsome (by rw [← hnull]; exact hn) r hr
  · rw [hrows]
    exact hne

/-- `seek_to_ordinal` on a well-formed iterator and an in-range ordinal:
it succeeds, reuses the current page exactly when that page contains the
ordinal and the page cursor is valid (re-reading the page found by
`seek_at_or_before` otherwise), and afterwards the iterator is consistently
positioned at `k` with `offset_in_page = k - first_ordinal`. -/
theorem seek_to_ordinal_spec (col : Column) (hcol : WfColumn col) (it : FileColumnIterator)
    (hit : WfIter col it) (k : Nat) (hk : k < col.num_rows) :
    ∃ it' pg', FileColumnIterator.seek_to_ordinal col it k = some it' ∧
      it'.page = some pg' ∧
      it'.page_iter < col.pages.length ∧
      PageLoadedAt col it'.page_iter pg' ∧
      WfPageState pg' ∧
      pg'.offset_in_page = k - pg'.first_ordinal ∧
      pg'.contains k = true ∧
      it'.current_ordinal = k ∧
      (∀ pg, it.page = some pg → pg.contains k = true → it.page_iter_valid col = true →
        it'.page_iter = it.page_iter ∧
          it' = { it with
            page := some (seek_to_pos_in_page pg (k - pg.first_ordinal))
            current_ordinal := k }) ∧
      ((it.page = none ∨
          (∃ pg, it.page = some pg ∧ (pg.contains k = false ∨
            it.page_iter_valid col = false))) →
        col.seek_at_or_before k = some it'.page_iter) := by
  rcases hpage : it.page with _ | pg
  · -- no page loaded: reload path
    obtain ⟨idx, hseek, hidx, h1, h2⟩ := col.seek_finds_page k hk
    obtain ⟨hpl0, hwf0⟩ := read_page_wf col idx hidx
    obtain ⟨hsome0, _⟩ := wf_page_some col hcol idx hidx _ hpl0
    have hsucc := col.first_ordinal_succ idx hidx
    have ht_le : k - col.first_ordinal idx ≤ (col.read_page idx).num_rows := by
      show _ ≤ (col.pages.getD idx ⟨[], false⟩).rows.length
      omega
    obtain ⟨hr, hhn, hfo, hoff, hdp, hnp⟩ :=
      seek_to_pos_wf (col.read_page idx) (k - col.first_ordinal idx)
        hwf0.1 hwf0.2.1 hwf0.2.2 hsome0 ht_le
    have hresult : FileColumnIterator.seek_to_ordinal col it k =
        some { it with
          page_iter := idx
          page := some (seek_to_pos_in_page (col.read_page idx) (k - col.first_ordinal idx))
          current_ordinal := k } := by
      simp only [FileColumnIterator.seek_to_ordinal, hpage, hseek]
      simp [Column.read_page]
    refine ⟨_, _, hresult, rfl, hidx, ?_, ?_, ?_, ?_, rfl, ?_, ?_⟩
    · exact ⟨hidx, by rw [hr]; exact hpl0.2.1, by rw [hhn]; exact hpl0.2.2.1,
        by rw [hfo]; exact hpl0.2.2.2⟩
    · refine ⟨?_, ?_, ?_⟩
      · rw [hoff]
        show k - col.first_ordinal idx ≤ _
        rw [ParsedPage.num_rows, hr]
        exact ht_le
      · rw [hdp, hr, hoff]
      · intro hhn2
        rw [hhn] at hhn2
        rw [hoff]
        exact hnp hhn2
    · rw [hoff, hfo, hpl0.2.2.2]
    · rw [ParsedPage.contains, ParsedPage.num_rows, hr, hfo]
      rw [show (col.read_page idx).first_ordinal = col.first_ordinal idx from rfl,
        show (col.read_page idx).rows = (col.pages.getD idx ⟨[], false⟩).rows from rfl]
      simp only [Bool.and_eq_true, decide_eq_true_eq]
      omega
    · intro pg hpg
      exact absurd hpg (by simp)
    · intro _
      exact hseek
  · -- a page is loaded
    rw [WfIter, hpage] at hit
    obtain ⟨idx, hpl, hwfp, hvalid_idx⟩ := hit
    by_cases hcv : pg.contains k = true ∧ it.page_iter_valid col = true
    · -- reuse the current page
      obtain ⟨hc, hv⟩ := hcv
      have hpi : it.page_iter = idx := hvalid_idx hv
      have hidx : idx < col.pages.length := hpl.1
      obtain ⟨hsome0, _⟩ := wf_page_some col hcol idx hidx pg hpl
      have hsucc := col.first_ordinal_succ idx hidx
      have hcontains : pg.first_ordinal ≤ k ∧ k < pg.first_ordinal + pg.num_rows := by
        rw [ParsedPage.contains, Bool.and_eq_true, decide_eq_true_eq, decide_eq_true_eq] at hc
        exact hc
      have ht_le : k - pg.first_ordinal ≤ pg.num_rows := by omega
      obtain ⟨hr, hhn, hfo, hoff, hdp, hnp⟩ :=
        seek_to_pos_wf pg (k - pg.first_ordinal) hwfp.1 hwfp.2.1 hwfp.2.2 hsome0 ht_le
      have hresult : FileColumnIterator.seek_to_ordinal col it k =
          some { it with
            page := some (seek_to_pos_in_page pg (k - pg.first_ordinal))
            current_ordinal := k } := by
        simp only [FileColumnIterator.seek_to_ordinal, hpage, hc, hv]
        simp only [FileColumnIterator.page_iter_valid] at hv
        simp [hv, hpage]
      refine ⟨_, _, hresult, rfl, ?_, ?_, ?_, ?_, ?_, rfl, ?_, ?_⟩
      · show it.page_iter < col.pages.length
        rw [hpi]
        exact hidx
      · show PageLoadedAt col it.page_iter _
        rw [hpi]
        exact ⟨hidx, by rw [hr]; exact hpl.2.1, by rw [hhn]; exact hpl.2.2.1,
          by rw [hfo]; exact hpl.2.2.2⟩
      · refine ⟨?_, ?_, ?_⟩
        · rw [hoff]
          show k - pg.first_ordinal ≤ _
          rw [ParsedPage.num_rows, hr]
          rw [ParsedPage.num_rows] at ht_le
          exact ht_le
        · rw [hdp, hr, hoff]
        · intro hhn2
          rw [hhn] at hhn2
          rw [hoff]
          exact hnp hhn2
      · rw [hoff, hfo]
      · rw [ParsedPage.contains, ParsedPage.num_rows, hr, hfo]
        simp only [Bool.and_eq_true, decide_eq_true_eq]
        rw [ParsedPage.num_rows] at hcontains
        omega
      · intro pg2 hpg2 _ _
        injection hpg2 with hpg2
        subst hpg2
        exact ⟨rfl, rfl⟩
      · rintro (hcon | ⟨pg2, hpg2, hcon⟩)
        · exact absurd hcon (by simp)
        · injection hpg2 with hpg2
          subst hpg2
          rcases hcon with hcon | hcon
          · rw [hc] at hcon
            exact absurd hcon (by simp)
          · rw [hv] at hcon
            exact absurd hcon (by simp)
    · -- reload path with a stale page
      obtain ⟨idx2, hseek, hidx2, h1, h2⟩ := col.seek_finds_page k hk
      obtain ⟨hpl0, hwf0⟩ := read_page_wf col idx2 hidx2
      obtain ⟨hsome0, _⟩ := wf_page_some col hcol idx2 hidx2 _ hpl0
      have hsucc := col.first_ordinal_succ idx2 hidx2
      have ht_le : k - col.first_ordinal idx2 ≤ (col.read_page idx2).num_rows := by
        show _ ≤ (col.pages.getD idx2 ⟨[], false⟩).rows.length
        omega
      obtain ⟨hr, hhn, hfo, hoff, hdp, hnp⟩ :=
        seek_to_pos_wf (col.read_page idx2) (k - col.first_ordinal idx2)
          hwf0.1 hwf0.2.1 hwf0.2.2 hsome0 ht_le
      have hneed : (!pg.contains k || !it.page_iter_valid col) = true := by
        rcases Decidable.not_and_iff_or_not.mp hcv with hcon | hcon
        · have h3 : pg.contains k = false := by
            cases h : pg.contains k <;> simp_all
          simp [h3]
        · have h3 : it.page_iter_valid col = false := by
            cases h : it.page_iter_valid col <;> simp_all
          simp [h3]
      have hresult : FileColumnIterator.seek_to_ordinal col it k =
          some { it with
            page_iter := idx2
            page := some (seek_to_pos_in_page (col.read_page idx2)
              (k - col.first_ordinal idx2))
            current_ordinal := k } := by
        simp only [FileColumnIterator.seek_to_ordinal, hpage, hneed, hseek]
        simp [Column.read_page]
      refine ⟨_, _, hresult, rfl, hidx2, ?_, ?_, ?_, ?_, rfl, ?_, ?_⟩
      · exact ⟨hidx2, by rw [hr]; exact hpl0.2.1, by rw [hhn]; exact hpl0.2.2.1,
          by rw [hfo]; exact hpl0.2.2.2⟩
      · refine ⟨?_, ?_, ?_⟩
        · rw [hoff]
          show k - col.first_ordinal idx2 ≤ _
          rw [ParsedPage.num_rows, hr]
          exact ht_le
        · rw [hdp, hr, hoff]
        · intro hhn2
          rw [hhn] at hhn2
          rw [hoff]
          exact hnp hhn2
      · rw [hoff, hfo, hpl0.2.2.2]
      · rw [ParsedPage.contains, ParsedPage.num_rows, hr, hfo]
        rw [show (col.read_page idx2).first_ordinal = col.first_ordinal idx2 from rfl,
          show (col.read_page idx2).rows = (col.pages.getD idx2 ⟨[], false⟩).rows from rfl]
        simp only [Bool.and_eq_true, decide_eq_true_eq]
        omega
      · intro pg2 hpg2 hc2 hv2
        injection hpg2 with hpg2
        subst hpg2
        exact absurd ⟨hc2, hv2⟩ hcv
      · intro _
        exact hseek

theorem take_slice_split (l : List (Option Int)) (k a b : Nat) :
    (l.drop k).take (a + b) = (l.drop k).take a ++ (l.drop (k + a)).take b := by
  have h : (l.drop k).drop a = l.drop (k + a) := by
    simp [List.drop_drop, Nat.add_comm]
  rw [List.take_add, h]

theorem data_reads_segment (rows : List (Option Int)) (off run : Nat)
    (hsome : ∀ r ∈ rows, r.isSome = true)
    (hbound : off + run ≤ rows.length) :
    (((rows.filterMap id).drop (countSomes (rows.take off))).take run).map some =
      (rows.drop off).take run ∧
    (((rows.filterMap id).drop (countSomes (rows.take off))).take run).length = run ∧
    countSomes (rows.take (off + run)) = countSomes (rows.take off) + run := by
  have hdrop := filterMap_drop_countSomes rows off
  have hseg_some : ∀ r ∈ (rows.drop off).take run, r.isSome = true := fun r hr =>
    hsome r (List.mem_of_mem_drop (List.mem_of_mem_take hr))
  have hseg_len : ((rows.drop off).take run).length = run := by
    rw [List.length_take, List.length_drop]
    omega
  have hfm := filterMap_all_some _ hseg_some
  have hsplit : (rows.drop off).filterMap id =
      ((rows.drop off).take run).filterMap id ++ ((rows.drop off).drop run).filterMap id := by
    have h := congrArg (List.filterMap id) (List.take_append_drop run (rows.drop off))
    rw [List.filterMap_append] at h
    exact h.symm
  have htake : ((rows.drop off).filterMap id).take run =
      ((rows.drop off).take run).filterMap id := by
    rw [hsplit, List.take_append_of_le_length (by simp [hfm.2, hseg_len]),
      List.take_of_length_le (by simp [hfm.2, hseg_len])]
  refine ⟨?_, ?_, ?_⟩
  · rw [hdrop, htake, hfm.1]
  · rw [hdrop, htake, hfm.2, hseg_len]
  · rw [countSomes_take_add]
    have : countSomes ((rows.drop off).take run) = run := by
      rw [countSomes, hfm.2, hseg_len]
    omega

/-- One live read from the current page (the part of a `next_batch` loop
iteration after the page is known to have remaining rows), assuming the
correctness of the remaining loop as an induction hypothesis. -/
theorem next_batch_loop_step (col : Column) (hcol : WfColumn col) (fuel : Nat)
    (IH : ∀ (it : FileColumnIterator) (dst : List (Option Int)) (remaining k : Nat),
      Positioned col it k → k + remaining ≤ col.num_rows → remaining < fuel →
      ∃ it', next_batch_loop col fuel it dst remaining =
          (it', dst ++ (col.to_rows.drop k).take remaining, 0) ∧
        Positioned col it' (k + remaining))
    (it : FileColumnIterator) (pg : ParsedPage) (dst : List (Option Int)) (remaining k : Nat)
    (hpos : Positioned col it k) (hpg : it.page = some pg) (hrem : pg.has_remaining = true)
    (hbound : k + remaining ≤ col.num_rows) (hfuel : remaining < fuel + 1)
    (hne : ¬remaining = 0) :
    ∃ it', next_batch_loop col (fuel + 1) it dst remaining =
        (it', dst ++ (col.to_rows.drop k).take remaining, 0) ∧
      Positioned col it' (k + remaining) := by
  obtain ⟨pg0, hpg0, hpi_lt, hpl, hwfp, hfo_off, hcur⟩ := hpos
  rw [hpg] at hpg0
  injection hpg0 with hpg0
  subst hpg0
  have hrem' : pg.offset_in_page < pg.num_rows := by
    rw [ParsedPage.has_remaining, decide_eq_true_eq] at hrem
    exact hrem
  have hrem_def : pg.remaining = pg.num_rows - pg.offset_in_page := rfl
  have hmin1 : Nat.min remaining pg.remaining ≤ remaining := Nat.min_le_left _ _
  have hmin2 : Nat.min remaining pg.remaining ≤ pg.remaining := Nat.min_le_right _ _
  have hmin3 : 1 ≤ Nat.min remaining pg.remaining :=
    Nat.le_min.mpr ⟨by omega, by rw [hrem_def]; omega⟩
  set nrows := Nat.min remaining pg.remaining with hnrows_def
  have hnrows_pos : 1 ≤ nrows := hmin3
  have hnrows_le : pg.offset_in_page + nrows ≤ pg.num_rows := by
    rw [hrem_def] at hmin2
    omega
  have hnrows_le_rem : nrows ≤ remaining := hmin1
  have hrows_eq : pg.rows = (col.pages.getD it.page_iter ⟨[], false⟩).rows := hpl.2.1
  have hfirst_eq : pg.first_ordinal = col.first_ordinal it.page_iter := hpl.2.2.2
  have hseg_global : (pg.rows.drop pg.offset_in_page).take nrows =
      (col.to_rows.drop k).take nrows := by
    rw [hrows_eq, ← hfo_off, hfirst_eq]
    exact (col.slice_in_page it.page_iter pg.offset_in_page nrows hpi_lt
      (by rw [← hrows_eq]; exact hnrows_le)).symm
  have houtput : (col.to_rows.drop k).take remaining =
      (col.to_rows.drop k).take nrows ++
        (col.to_rows.drop (k + nrows)).take (remaining - nrows) := by
    have h := take_slice_split col.to_rows k nrows (remaining - nrows)
    rw [show nrows + (remaining - nrows) = remaining from by omega] at h
    exact h
  cases hn : pg.has_null with
  | true =>
    have hnull_pos : pg.null_pos = pg.offset_in_page := hwfp.2.2 hn
    have hspec := null_runs_spec nrows pg dst it.current_ordinal nrows hn (Nat.le_refl _)
      hnull_pos hnrows_le hwfp.2.1
    have hunfold : next_batch_loop col (fuel + 1) it dst remaining =
        next_batch_loop col fuel
          { it with
            page := some { pg with
              offset_in_page := pg.offset_in_page + nrows
              null_pos := pg.offset_in_page + nrows
              data_pos := countSomes (pg.rows.take (pg.offset_in_page + nrows)) }
            current_ordinal := it.current_ordinal + nrows }
          (dst ++ (pg.rows.drop pg.offset_in_page).take nrows) (remaining - nrows) := by
      rw [next_batch_loop]
      simp only [if_neg hne, hpg, hrem, if_true, hn, hspec, Bool.false_eq_true, if_false,
        ← hnrows_def]
    have hposNew : Positioned col
        { it with
          page := some { pg with
            offset_in_page := pg.offset_in_page + nrows
            null_pos := pg.offset_in_page + nrows
            data_pos := countSomes (pg.rows.take (pg.offset_in_page + nrows)) }
          current_ordinal := it.current_ordinal + nrows } (k + nrows) := by
      refine ⟨_, rfl, hpi_lt, ⟨hpi_lt, hrows_eq, hpl.2.2.1, hfirst_eq⟩, ?_, ?_, ?_⟩
      · exact ⟨by show pg.offset_in_page + nrows ≤ pg.num_rows; exact hnrows_le, rfl,
          fun _ => rfl⟩
      · show pg.first_ordinal + (pg.offset_in_page + nrows) = k + nrows
        omega
      · show it.current_ordinal + nrows = k + nrows
        omega
    obtain ⟨it', hloop, hpos'⟩ := IH _ _ (remaining - nrows) (k + nrows) hposNew
      (by omega) (by omega)
    refine ⟨it', ?_, ?_⟩
    · rw [hunfold, hseg_global, hloop, houtput, List.append_assoc]
    · rw [show k + remaining = k + nrows + (remaining - nrows) from by omega]
      exact hpos'
  | false =>
    obtain ⟨hsome, _⟩ := wf_page_some col hcol it.page_iter hpi_lt pg hpl
    have hall : ∀ r ∈ pg.rows, r.isSome = true := hsome hn
    have hdseg := data_reads_segment pg.rows pg.offset_in_page nrows hall
      (by rw [← ParsedPage.num_rows]; exact hnrows_le)
    have hvals_map : ((pg.data_values.drop pg.data_pos).take nrows).map some =
        (pg.rows.drop pg.offset_in_page).take nrows := by
      rw [ParsedPage.data_values, hwfp.2.1]
      exact hdseg.1
    have hvals_len : ((pg.data_values.drop pg.data_pos).take nrows).length = nrows := by
      rw [ParsedPage.data_values, hwfp.2.1]
      exact hdseg.2.1
    have hunfold : next_batch_loop col (fuel + 1) it dst remaining =
        next_batch_loop col fuel
          { it with
            page := some { pg with
              data_pos := pg.data_pos + nrows
              offset_in_page := pg.offset_in_page + nrows }
            current_ordinal := it.current_ordinal + nrows }
          (dst ++ (pg.rows.drop pg.offset_in_page).take nrows) (remaining - nrows) := by
      rw [next_batch_loop]
      simp only [if_neg hne, hpg, hrem, if_true, hn, Bool.false_eq_true, if_false,
        ParsedPage.data_next_batch, hvals_len, hvals_map]
    have hposNew : Positioned col
        { it with
          page := some { pg with
            data_pos := pg.data_pos + nrows
            offset_in_page := pg.offset_in_page + nrows }
          current_ordinal := it.current_ordinal + nrows } (k + nrows) := by
      refine ⟨_, rfl, hpi_lt, ⟨hpi_lt, hrows_eq, hpl.2.2.1, hfirst_eq⟩, ?_, ?_, ?_⟩
      · refine ⟨by show pg.offset_in_page + nrows ≤ pg.num_rows; exact hnrows_le, ?_, ?_⟩
        · show pg.data_pos + nrows = countSomes (pg.rows.take (pg.offset_in_page + nrows))
          rw [hdseg.2.2, hwfp.2.1]
        · intro hcon
          rw [show ({ pg with
              data_pos := pg.data_pos + nrows
              offset_in_page := pg.offset_in_page + nrows } : ParsedPage).has_null =
            pg.has_null from rfl, hn] at hcon
          exact absurd hcon (by simp)
      · show pg.first_ordinal + (pg.offset_in_page + nrows) = k + nrows
        omega
      · show it.current_ordinal + nrows = k + nrows
        omega
    obtain ⟨it', hloop, hpos'⟩ := IH _ _ (remaining - nrows) (k + nrows) hposNew
      (by omega) (by omega)
    refine ⟨it', ?_, ?_⟩
    · rw [hunfold, hseg_global, hloop, houtput, List.append_assoc]
    · rw [show k + remaining = k + nrows + (remaining - nrows) from by omega]
      exact hpos'

/-- When the current page is exhausted, a loop iteration first loads the
next page and then behaves exactly as if that freshly loaded page had been
current. -/
theorem next_batch_loop_load_eq (col : Column) (fuel : Nat) (it : FileColumnIterator)
    (pg : ParsedPage) (dst : List (Option Int)) (remaining : Nat)
    (hpg : it.page = some pg) (hrem : pg.has_remaining = false) (hne : ¬remaining = 0)
    (hnext : it.page_iter + 1 < col.pages.length)
    (hfresh : 0 < (col.pages.getD (it.page_iter + 1) ⟨[], false⟩).rows.length) :
    next_batch_loop col (fuel + 1) it dst remaining =
      next_batch_loop col (fuel + 1)
        { it with
          page_iter := it.page_iter + 1
          page := some (col.read_page (it.page_iter + 1)) } dst remaining := by
  have hfreshB : (col.read_page (it.page_iter + 1)).has_remaining = true := by
    rw [ParsedPage.has_remaining, decide_eq_true_eq]
    show 0 < (col.read_page (it.page_iter + 1)).num_rows
    exact hfresh
  have hload : it.load_next_page col =
      ({ it with
        page_iter := it.page_iter + 1
        page := some (col.read_page (it.page_iter + 1)) }, false) := by
    rw [FileColumnIterator.load_next_page]
    rw [if_pos hnext]
    rw [seek_to_pos_fast _ 0 rfl]
  conv =>
    lhs
    rw [next_batch_loop]
  conv =>
    rhs
    rw [next_batch_loop]
  simp only [if_neg hne, hpg, hrem, Bool.false_eq_true, if_false, hload, hfreshB, if_true]

/-- Correctness of the `next_batch` refill loop: from a consistently
positioned iterator at ordinal `k`, reading `remaining ≤ num_rows - k` rows
appends exactly the column's rows `[k, k + remaining)` and leaves the
iterator positioned at `k + remaining`. -/
theorem next_batch_loop_spec (col : Column) (hcol : WfColumn col) :
    ∀ (fuel : Nat) (it : FileColumnIterator) (dst : List (Option Int)) (remaining k : Nat),
      Positioned col it k → k + remaining ≤ col.num_rows → remaining < fuel →
      ∃ it', next_batch_loop col fuel it dst remaining =
          (it', dst ++ (col.to_rows.drop k).take remaining, 0) ∧
        Positioned col it' (k + remaining) := by
  intro fuel
  induction fuel with
  | zero =>
    intro it dst remaining k _ _ hfuel
    omega
  | succ fuel ih =>
    intro it dst remaining k hpos hbound hfuel
    by_cases hne : remaining = 0
    · subst hne
      refine ⟨it, ?_, by simpa using hpos⟩
      rw [next_batch_loop]
      simp
    · obtain ⟨pg, hpg, hpi_lt, hpl, hwfp, hfo_off, hcur⟩ := hpos
      by_cases hrem : pg.has_remaining = true
      · exact next_batch_loop_step col hcol fuel ih it pg dst remaining k
          ⟨pg, hpg, hpi_lt, hpl, hwfp, hfo_off, hcur⟩ hpg hrem hbound hfuel hne
      · have hrem' : pg.has_remaining = false := by
          cases h : pg.has_remaining <;> simp_all
        have hoff_eq : pg.offset_in_page = pg.num_rows := by
          rw [ParsedPage.has_remaining] at hrem'
          have := hwfp.1
          simp only [decide_eq_false_iff_not, Nat.not_lt] at hrem'
          omega
        -- k is the first ordinal of the next page, which must exist
        have hsucc := col.first_ordinal_succ it.page_iter hpi_lt
        have hk_next : k = col.first_ordinal (it.page_iter + 1) := by
          rw [hsucc, ← hpl.2.2.2]
          rw [← hfo_off, hoff_eq]
          rw [ParsedPage.num_rows, hpl.2.1]
        have hk_lt : k < col.num_rows := by omega
        have hnext : it.page_iter + 1 < col.pages.length := by
          by_contra hcon
          have := col.first_ordinal_of_le (it.page_iter + 1) (by omega)
          omega
        obtain ⟨hfresh_ne, _⟩ := wf_page_some col hcol (it.page_iter + 1) hnext _
          (read_page_wf col (it.page_iter + 1) hnext).1
        have hfresh : 0 < (col.pages.getD (it.page_iter + 1) ⟨[], false⟩).rows.length := by
          have hmem : col.pages.getD (it.page_iter + 1) ⟨[], false⟩ ∈ col.pages := by
            rw [List.getD_eq_getElem col.pages _ hnext]
            exact List.getElem_mem hnext
          have := (hcol _ hmem).1
          cases h : (col.pages.getD (it.page_iter + 1) ⟨[], false⟩).rows with
          | nil => exact absurd h this
          | cons a l => simp [h]
        rw [next_batch_loop_load_eq col fuel it pg dst remaining hpg hrem' hne hnext hfresh]
        have hposNew : Positioned col
            { it with
              page_iter := it.page_iter + 1
              page := some (col.read_page (it.page_iter + 1)) } k := by
          obtain ⟨hpl1, hwf1⟩ := read_page_wf col (it.page_iter + 1) hnext
          refine ⟨_, rfl, hnext, hpl1, hwf1, ?_, hcur⟩
          show col.first_ordinal (it.page_iter + 1) + 0 = k
          omega
        obtain ⟨pgN, hpgN, hpiN, hplN, hwfN, hfoN, hcurN⟩ := hposNew
        have hremN : pgN.has_remaining = true := by
          injection hpgN with hpgN
          subst hpgN
          rw [ParsedPage.has_remaining, decide_eq_true_eq]
          show 0 < _
          exact hfresh
        exact next_batch_loop_step col hcol fuel ih _ pgN dst remaining k
          ⟨pgN, hpgN, hpiN, hplN, hwfN, hfoN, hcurN⟩ hpgN hremN hbound hfuel hne

/-- Witness for C5 on a concrete page `[some 5, none, some 7]` positioned at
offset 1 with consistent decoders. -/
theorem null_position_invariant_witness :
    (seek_to_pos_in_page ⟨0, [some 5, none, some 7], true, 1, 1, 1⟩ 3).null_inv ∧
    (next_batch_null_runs 2 ⟨0, [some 5, none, some 7], true, 1, 1, 1⟩ [] 1 2).1.null_inv :=
  null_position_invariant ⟨0, [some 5, none, some 7], true, 1, 1, 1⟩ rfl
    (by constructor <;> decide) (by decide) 3 2 2 [] 1 (by decide) (by decide)

/-- **C8 evaluation (code bug).** A failing null-child read is swallowed:
with the offsets child succeeding (4 rows) and the null child failing,
`next_batch` still returns OK — while errors of the offsets child and of
the item child do propagate. -/
theorem array_next_batch_swallows_null_child_error :
    ArrayFileColumnIterator.next_batch_status true (.ok 4)
        (.error (Status.IOError "null child read failed")) (.ok ()) = .ok 4 ∧
    ArrayFileColumnIterator.next_batch_status true
        (.error (Status.IOError "offsets child read failed")) (.ok ()) (.ok ()) =
      .error (Status.IOError "offsets child read failed") ∧
    ArrayFileColumnIterator.next_batch_status true (.ok 4) (.ok ())
        (.error (Status.IOError "item child read failed")) =
      .error (Status.IOError "item child read failed") :=
  ⟨rfl, rfl, rfl⟩

/-- **C9 counterexample.** `init` with `has_default` and default string
`"NULL"` on a **non-nullable** column does *not* fail: only a debug
`DCHECK` examines nullability, and the call returns OK configured to
produce nulls. -/
theorem default_value_null_not_nullable_ok :
    DefaultValueColumnIterator.init true "NULL" false (.ok ()) = .ok true :=
  rfl

/-- **C9 (amended).** `init` with `has_default` and `default_string ==
"NULL"` returns OK and configures the iterator to produce null values,
regardless of nullability (a debug-only assertion checks that the column is
nullable; no status is returned for the violation); with the iterator so
configured, every row of every batch is null. -/
theorem default_value_null_init_spec (is_nullable : Bool)
    (materialize_result : Except Status Unit) (mem_value : Int) (n : Nat) :
    DefaultValueColumnIterator.init true "NULL" is_nullable materialize_result = .ok true ∧
    DefaultValueColumnIterator.next_batch true mem_value n = (List.replicate n none, true) :=
  ⟨rfl, rfl⟩

/-- A positioned iterator reads exactly the next `m` column rows:
`next_batch m` emits rows `[k, k + m)` in ordinal order, reports count `m`,
and leaves the iterator positioned at `k + m`. -/
theorem next_batch_spec (col : Column) (hcol : WfColumn col) (it : FileColumnIterator)
    (k m : Nat) (hpos : Positioned col it k) (hm : k + m ≤ col.num_rows) :
    ∃ it', FileColumnIterator.next_batch col it m =
        (it', (col.to_rows.drop k).take m, m) ∧
      Positioned col it' (k + m) := by
  obtain ⟨it', hloop, hpos'⟩ := next_batch_loop_spec col hcol (m + col.pages.length + 1)
    it [] m k hpos hm (by omega)
  refine ⟨it', ?_, hpos'⟩
  simp only [FileColumnIterator.next_batch, hloop, List.nil_append, Nat.sub_zero]

/-- **C1.** After `seek_to_ordinal(k)` on a well-formed column, reading `m`
rows via `next_batch` returns exactly the values at ordinals `[k, k + m)`,
in order, with count `m`; the seek reuses the loaded page when it contains
`k` and the page cursor is valid, otherwise repositions the cursor via
`seek_at_or_before(k)`; on return `current_ordinal = k` and
`offset_in_page = k - page.first_ordinal`. -/
theorem seek_then_read (col : Column) (hcol : WfColumn col) (it : FileColumnIterator)
    (hit : WfIter col it) (k m : Nat) (hk : k < col.num_rows) (hm : k + m ≤ col.num_rows) :
    ∃ it' pg', FileColumnIterator.seek_to_ordinal col it k = some it' ∧
      it'.page = some pg' ∧
      it'.current_ordinal = k ∧
      pg'.offset_in_page = k - pg'.first_ordinal ∧
      (∀ pg, it.page = some pg → pg.contains k = true → it.page_iter_valid col = true →
        it'.page_iter = it.page_iter) ∧
      ((it.page = none ∨ (∃ pg, it.page = some pg ∧ (pg.contains k = false ∨
          it.page_iter_valid col = false))) →
        col.seek_at_or_before k = some it'.page_iter) ∧
      (FileColumnIterator.next_batch col it' m).2.1 = (col.to_rows.drop k).take m ∧
      (FileColumnIterator.next_batch col it' m).2.2 = m := by
  obtain ⟨it', pg', hseek, hpage, hlt, hpl, hwfp, hoff, hcont, hcur, hreuse, hreload⟩ :=
    seek_to_ordinal_spec col hcol it hit k hk
  have hcont' := hcont
  rw [ParsedPage.contains, Bool.and_eq_true, decide_eq_true_eq, decide_eq_true_eq] at hcont'
  have hpos : Positioned col it' k := by
    refine ⟨pg', hpage, hlt, hpl, hwfp, ?_, hcur⟩
    rw [hoff]
    omega
  obtain ⟨it'', hnb, _⟩ := next_batch_spec col hcol it' k m hpos hm
  refine ⟨it', pg', hseek, hpage, hcur, hoff, ?_, hreload, ?_, ?_⟩
  · intro pg hpg hc hv
    exact (hreuse pg hpg hc hv).1
  · rw [hnb]
  · rw [hnb]

/-- **C1 witness.** On the concrete two-page column, seeking to ordinal 1
from a fresh iterator and reading 3 rows yields `[none, some 7, some 8]` —
the rows at ordinals 1, 2, 3 — across the page boundary. -/
theorem seek_then_read_witness :
    ∃ it' pg', FileColumnIterator.seek_to_ordinal sample_col sample_it 1 = some it' ∧
      it'.page = some pg' ∧
      it'.current_ordinal = 1 ∧
      pg'.offset_in_page = 1 - pg'.first_ordinal ∧
      (∀ pg, sample_it.page = some pg → pg.contains 1 = true →
        sample_it.page_iter_valid sample_col = true →
        it'.page_iter = sample_it.page_iter) ∧
      ((sample_it.page = none ∨ (∃ pg, sample_it.page = some pg ∧ (pg.contains 1 = false ∨
          sample_it.page_iter_valid sample_col = false))) →
        sample_col.seek_at_or_before 1 = some it'.page_iter) ∧
      (FileColumnIterator.next_batch sample_col it' 3).2.1 =
        (sample_col.to_rows.drop 1).take 3 ∧
      (FileColumnIterator.next_batch sample_col it' 3).2.2 = 3 :=
  seek_then_read sample_col (by unfold WfColumn; decide) sample_it trivial 1 3 (by decide)
    (by decide)

/-- **C6.** `seek_to_ordinal` is idempotent: if a seek to a valid ordinal
`k` succeeds with state `it'`, a second `seek_to_ordinal(k)` from `it'`
returns `it'` unchanged (the in-page reposition hits the fast path where
`offset_in_page` already equals the target), so subsequent batches are
identical. -/
theorem seek_to_ordinal_idem (col : Column) (hcol : WfColumn col) (it : FileColumnIterator)
    (hit : WfIter col it) (k : Nat) (hk : k < col.num_rows) (it' : FileColumnIterator)
    (h : FileColumnIterator.seek_to_ordinal col it k = some it') :
    FileColumnIterator.seek_to_ordinal col it' k = some it' := by
  obtain ⟨it0, pg', hseek, hpage, hlt, hpl, hwfp, hoff, hcont, hcur, _, _⟩ :=
    seek_to_ordinal_spec col hcol it hit k hk
  rw [h] at hseek
  injection hseek with he
  subst he
  have hvalid : it'.page_iter_valid col = true := by
    rw [FileColumnIterator.page_iter_valid, decide_eq_true_eq]
    exact hlt
  have hstep := seek_to_pos_fast pg' (k - pg'.first_ordinal) hoff
  obtain ⟨pi, pp, co⟩ := it'
  have hpp : pp = some pg' := hpage
  have hco : co = k := hcur
  subst hpp
  subst hco
  simp only [FileColumnIterator.seek_to_ordinal, hcont, hvalid, hstep, Bool.not_true,
    Bool.or_self, Bool.false_eq_true, if_false]

/-- **C6 witness.** On the concrete column, the state reached by
`seek_to_ordinal(1)` from a fresh iterator is a fixed point of
`seek_to_ordinal(1)`. -/
theorem seek_to_ordinal_idem_witness :
    FileColumnIterator.seek_to_ordinal sample_col sample_it1 1 = some sample_it1 :=
  seek_to_ordinal_idem sample_col (by unfold WfColumn; decide) sample_it trivial 1
    (by decide) sample_it1 (by decide)

end SegmentV2
